import Mathlib

/-!
Verification of the token-based cell encoding/decoding and reconciliation
engine of the lithorama.bookings application (src/streamlit_app.py).

The development shallowly embeds the relevant Python functions:

- TOKEN_DEV_RE and parse_dev_tokens (lines 193, 378-392): the token codec.
- serialize_dev (lines 394-399): the encoder, including CPython percent-g
  float formatting, modelled by formatG below.
- dedupe_by_key (lines 401-407): last-write-wins dedup over the
  (year, month) key, realised with an insertion-ordered association list,
  matching the behaviour of a CPython dict.
- the booking-form submit handler (lines 1071-1092): applyFormValue.
- save_grid_df_for_year (lines 510-583): phase 1 (normalising each cell to
  the saved year and the column month before writing the per-month file,
  lines 523-539) and phase 2 (the scan over dev files that rebuilds the
  bookings ledger, lines 546-578), modelled by phase1Cell, rowsFromFileCell,
  fileRecs and gridToLedger.

Python strings are modelled as Lean String / List Char.  Python floats are
modelled as exact rationals: every numeric literal handled by the claims has
at most 15 significant digits, for which decimal-to-double-to-shortest
conversions are exact, so the exact-rational model agrees with IEEE doubles
on every input appearing in a theorem or counterexample below.  Percent-g
formatting (6 significant digits, scientific notation outside the exponent
range [-4, 6), round-half-even, trailing-zero stripping) is modelled by
formatG.
-/

set_option maxHeartbeats 4000000

namespace Lithorama

/-- Decimal digit test for a character, as in the regex class backslash-d
restricted to ASCII (re matches ASCII digits here since tokens come from
ASCII text; Python str.isdigit is not involved). -/
def isDigitCh (c : Char) : Bool := decide ('0' ≤ c) && decide (c ≤ '9')

/-- Uppercase ASCII letter test, the regex class A-Z of TOKEN_DEV_RE. -/
def isUpperCh (c : Char) : Bool := decide ('A' ≤ c) && decide (c ≤ 'Z')

/-- Whitespace characters stripped by Python str.strip (ASCII subset; the
strings handled by the claims contain no exotic unicode whitespace). -/
def isSpaceCh (c : Char) : Bool :=
  decide (c = ' ') || decide (c = '\t') || decide (c = '\n') || decide (c = '\r')
    || decide (c = '\x0b') || decide (c = '\x0c')

/-- ASCII uppercase conversion of one character, as done by str.upper on the
ASCII strings handled here. -/
def asciiUpperCh (c : Char) : Char :=
  if decide ('a' ≤ c) && decide (c ≤ 'z') then Char.ofNat (c.toNat - 32) else c

/-- Model of str.upper for the ASCII month strings of the application. -/
def asciiUpper (s : String) : String := ⟨s.data.map asciiUpperCh⟩

/-- Model of str.strip with no argument: drop whitespace on both ends. -/
def pyStripCh (cs : List Char) : List Char :=
  ((cs.dropWhile isSpaceCh).reverse.dropWhile isSpaceCh).reverse

/-- Model of Python str.split on a single comma: empty segments are kept and
the empty string yields one empty segment. -/
def splitCommaCh : List Char → List (List Char)
  | [] => [[]]
  | c :: cs =>
    match splitCommaCh cs with
    | [] => if c = ',' then [[], []] else [[c]]
    | s :: rest => if c = ',' then [] :: s :: rest else (c :: s) :: rest

/-- Model of the comma join performed by str.join in serialize_dev. -/
def joinComma : List (List Char) → List Char
  | [] => []
  | [p] => p
  | p :: ps => p ++ ',' :: joinComma ps

/-- Numeric value of a decimal digit character. -/
def digitVal (c : Char) : ℕ := c.toNat - '0'.toNat

/-- Value of a big-endian list of decimal digit characters. -/
def natOfDigits (cs : List Char) : ℕ := cs.foldl (fun a c => 10 * a + digitVal c) 0

/-- Exact value of the decimal numeral with integer digits ds and fractional
digits fs; models float() applied to the matched price group. -/
def ratOfNumeral (ds fs : List Char) : ℚ :=
  mkRat ((natOfDigits ds * 10 ^ fs.length + natOfDigits fs : ℕ) : ℤ) (10 ^ fs.length)

/-- Longest prefix of decimal digits together with the rest of the input. -/
def takeDigits : List Char → List Char × List Char
  | [] => ([], [])
  | c :: cs =>
    if isDigitCh c then
      match takeDigits cs with
      | (ds, r) => (c :: ds, r)
    else ([], c :: cs)

/-- Longest prefix of uppercase letters together with the rest. -/
def takeUpper : List Char → List Char × List Char
  | [] => ([], [])
  | c :: cs =>
    if isUpperCh c then
      match takeUpper cs with
      | (ds, r) => (c :: ds, r)
    else ([], c :: cs)

/-- Greedy match of the price group of TOKEN_DEV_RE: one or more digits with
an optional dot-digits fraction, returning its exact value and the rest of
the input.  When a dot is not followed by a digit the regex can only match
the bare integer part, and the overall token match then fails at the
following colon test, which this function reproduces by leaving the dot in
the rest. -/
def parseNum (cs : List Char) : Option (ℚ × List Char) :=
  match takeDigits cs with
  | ([], _) => none
  | (d :: ds, r) =>
    match r with
    | [] => some (ratOfNumeral (d :: ds) [], [])
    | c :: r2 =>
      if c = '.' then
        match takeDigits r2 with
        | ([], _) => some (ratOfNumeral (d :: ds) [], c :: r2)
        | (f :: fs, r3) => some (ratOfNumeral (d :: ds) (f :: fs), r3)
      else some (ratOfNumeral (d :: ds) [], c :: r2)

/-- Match of the year group of TOKEN_DEV_RE: exactly four decimal digits,
returning int() of the matched text. -/
def take4Digits : List Char → Option (ℕ × List Char)
  | a :: b :: c :: d :: r =>
    if isDigitCh a && isDigitCh b && isDigitCh c && isDigitCh d then
      some (natOfDigits [a, b, c, d], r)
    else none
  | _ => none

/-- Kind discriminator of a token: the strings REV and EX stored by
parse_dev_tokens. -/
inductive Kind where
  | REV
  | EX
deriving DecidableEq

/-- One parsed token, the dict built by parse_dev_tokens with keys price,
year, month_en and kind.  All four keys are always present in the dicts the
application builds, so a plain structure is a faithful model. -/
structure DevTok where
  price : ℚ
  year : ℕ
  month_en : String
  kind : Kind
deriving DecidableEq

/-- Full match of one stripped segment against TOKEN_DEV_RE, that is the
anchored regex NUMBER colon YEAR semicolon MONTH with an optional semicolon
EX suffix, building the token dict as parse_dev_tokens does (month stored
via str.upper, which is the identity on the matched A-Z letters). -/
def matchTokenCh (cs : List Char) : Option DevTok :=
  match parseNum cs with
  | none => none
  | some (p, r1) =>
    match r1 with
    | [] => none
    | c1 :: r2 =>
      if c1 = ':' then
        match take4Digits r2 with
        | none => none
        | some (y, r3) =>
          match r3 with
          | [] => none
          | c2 :: r4 =>
            if c2 = ';' then
              match takeUpper r4 with
              | ([], _) => none
              | (m :: mo, r5) =>
                if r5 = [] then some ⟨p, y, ⟨(m :: mo).map asciiUpperCh⟩, Kind.REV⟩
                else if r5 = [';', 'E', 'X'] then
                  some ⟨p, y, ⟨(m :: mo).map asciiUpperCh⟩, Kind.EX⟩
                else none
            else none
      else none

/-- Embedding of parse_dev_tokens over a character list: split on commas,
strip each segment, keep the segments matching TOKEN_DEV_RE.  A None or
non-string cell in Python also yields the empty list, which coincides with
this function on the empty character list. -/
def parseDevTokensCh (cs : List Char) : List DevTok :=
  ((splitCommaCh cs).map pyStripCh).filterMap matchTokenCh

/-- Embedding of parse_dev_tokens (src/streamlit_app.py lines 378-392). -/
def parse_dev_tokens (cell : String) : List DevTok := parseDevTokensCh cell.data

/-- Big-endian decimal digit characters of a natural number, fuel-indexed to
make the recursion structural.  With fuel above the argument this is the
standard decimal rendering used by Python str of an int. -/
def natDigitsFuel : ℕ → ℕ → List Char
  | 0, _ => []
  | fuel + 1, n =>
    if n < 10 then [Nat.digitChar n]
    else natDigitsFuel fuel (n / 10) ++ [Nat.digitChar (n % 10)]

/-- Decimal digit characters of a natural number, the rendering performed by
the Python f-string on int values. -/
def natDigits (n : ℕ) : List Char := natDigitsFuel (n + 1) n

/-- Number of decimal digits of a natural number. -/
def digitCount (n : ℕ) : ℕ := (natDigits n).length

/-- Drop trailing zero characters, used by percent-g formatting. -/
def stripZerosRight (cs : List Char) : List Char :=
  (cs.reverse.dropWhile (fun c => decide (c = '0'))).reverse

/-- Integer power of ten as an exact rational. -/
def pow10Z (e : ℤ) : ℚ :=
  if 0 ≤ e then mkRat ((10 : ℤ) ^ e.toNat) 1 else mkRat 1 (10 ^ (-e).toNat)

/-- Round a nonnegative rational to the nearest integer, ties to even, the
rounding applied when a double is rendered with 6 significant digits. -/
def roundHalfEven (x : ℚ) : ℕ :=
  let n := x.num.toNat
  let d := x.den
  let q := n / d
  let r := n % d
  if 2 * r < d then q else if d < 2 * r then q + 1 else if q % 2 = 0 then q else q + 1

/-- Decimal exponent of a positive rational: the unique e with
10 powered e at most x below 10 powered e plus one. -/
def expOf (x : ℚ) : ℤ :=
  let a : ℤ := digitCount x.num.toNat
  let b : ℤ := digitCount x.den
  if pow10Z (a - b) ≤ x then a - b else a - b - 1

/-- Exact product of a rational with an integer power of ten, computed on
numerator and denominator. -/
def scalePow10 (x : ℚ) (k : ℤ) : ℚ :=
  if 0 ≤ k then mkRat (x.num * (10 : ℤ) ^ k.toNat) x.den
  else mkRat x.num (x.den * 10 ^ (-k).toNat)

/-- First six significant decimal digits of a positive rational, rounded
half-to-even, together with the decimal exponent; the carry case where
rounding overflows to a seventh digit bumps the exponent. -/
def sixDigitsRound (x : ℚ) : ℕ × ℤ :=
  if roundHalfEven (scalePow10 x (5 - expOf x)) = 1000000 then (100000, expOf x + 1)
  else (roundHalfEven (scalePow10 x (5 - expOf x)), expOf x)

/-- Fixed-notation rendering of percent-g: place the decimal point after
position e of the digit block and strip trailing fractional zeros. -/
def formatFixed (ds : List Char) (e : ℤ) : List Char :=
  if 0 ≤ e then
    if stripZerosRight (ds.drop (e.toNat + 1)) = [] then ds.take (e.toNat + 1)
    else ds.take (e.toNat + 1) ++ '.' :: stripZerosRight (ds.drop (e.toNat + 1))
  else
    '0' :: '.' :: (List.replicate (-e - 1).toNat '0' ++ stripZerosRight ds)

/-- Scientific-notation rendering of percent-g: mantissa with stripped
trailing zeros, then the letter e, an explicit sign and a two-digit-padded
exponent. -/
def formatSci (ds : List Char) (e : ℤ) : List Char :=
  (match stripZerosRight ds with
    | [] => ['0']
    | c :: cs => if cs = [] then [c] else c :: '.' :: cs)
  ++ 'e' :: (if e < 0 then '-' else '+')
  :: (if (natDigits (if e < 0 then -e else e).toNat).length = 1 then
        '0' :: natDigits (if e < 0 then -e else e).toNat
      else natDigits (if e < 0 then -e else e).toNat)

/-- Percent-g rendering of a positive rational. -/
def formatPos (x : ℚ) : List Char :=
  if decide (-4 ≤ (sixDigitsRound x).2) && decide ((sixDigitsRound x).2 < 6) then
    formatFixed (natDigits (sixDigitsRound x).1) (sixDigitsRound x).2
  else formatSci (natDigits (sixDigitsRound x).1) (sixDigitsRound x).2

/-- Model of the CPython format specifier g applied to a float, as used by
serialize_dev and the bare-number branches: 6 significant digits, fixed
notation for decimal exponents in [-4, 6) and scientific notation
otherwise, trailing zeros stripped. -/
def formatG (x : ℚ) : String :=
  if x = 0 then ⟨['0']⟩ else if x < 0 then ⟨'-' :: formatPos (-x)⟩ else ⟨formatPos x⟩

/-- Suffix appended by serialize_dev for an expense token. -/
def kindSuffix : Kind → List Char
  | Kind.REV => []
  | Kind.EX => [';', 'E', 'X']

/-- Rendering of one token by serialize_dev: percent-g price, colon, int
year, semicolon, uppercased month, optional expense suffix. -/
def serializeTokCh (t : DevTok) : List Char :=
  (formatG t.price).data ++ ':' :: natDigits t.year ++ ';'
    :: (asciiUpper t.month_en).data ++ kindSuffix t.kind

/-- Embedding of serialize_dev (lines 394-399).  The Python generator skips
dicts lacking the price, year or month_en keys; the dicts built anywhere in
the application always carry all keys, so the structure model makes the
filter vacuous. -/
def serialize_dev (toks : List DevTok) : String := ⟨joinComma (toks.map serializeTokCh)⟩

/-- Dedup key used by dedupe_by_key and the reconciliation filters:
the pair of int year and uppercased month; the kind is not part of it. -/
def keyOf (t : DevTok) : ℕ × String := (t.year, asciiUpper t.month_en)

/-- One assignment keyed d of k to e on an insertion-ordered association
list, the model of a CPython dict update: an existing key keeps its
position and receives the new value, a new key is appended. -/
def upsert (acc : List ((ℕ × String) × DevTok)) (e : DevTok) : List ((ℕ × String) × DevTok) :=
  if acc.any (fun p => decide (p.1 = keyOf e)) then
    acc.map (fun p => if p.1 = keyOf e then (keyOf e, e) else p)
  else acc ++ [(keyOf e, e)]

/-- Embedding of dedupe_by_key (lines 401-407): fill an insertion-ordered
dict keyed by (year, upper month) and return its values. -/
def dedupe_by_key (toks : List DevTok) : List DevTok :=
  (toks.foldl upsert []).map (fun p => p.2)

/-- Matched text of the first regex search for NUMBER with optional
fraction, at a position known to start with a digit. -/
def numeralAt (cs : List Char) : List Char :=
  match takeDigits cs with
  | (ds, r) =>
    match r with
    | [] => ds
    | c :: r2 =>
      if c = '.' then
        match takeDigits r2 with
        | ([], _) => ds
        | (f :: fs, _) => ds ++ '.' :: f :: fs
      else ds

/-- Model of re.search for the pattern NUMBER with optional fraction:
the leftmost match, or none when the text holds no digit. -/
def searchNumberCh : List Char → Option (List Char)
  | [] => none
  | c :: cs => if isDigitCh c then some (numeralAt (c :: cs)) else searchNumberCh cs

/-- Exact value of a matched numeral, the model of float() on it. -/
def numeralValue (cs : List Char) : ℚ := ((parseNum cs).map (fun p => p.1)).getD 0

/-- Embedding of the per-cell body of the booking-form submit handler
(lines 1076-1090): strip the submitted value; a blank value or a value
with no digit leaves the cell unchanged; otherwise the first number in the
value becomes the price of a fresh revenue token for the selected year and
the column month, existing tokens for that (year, month) key are removed,
and the cell is re-encoded after dedupe_by_key. -/
def applyFormValue (current_year : ℕ) (m_en : String) (cellText : String) (v : String) : String :=
  if pyStripCh v.data = [] then cellText
  else
    match searchNumberCh (pyStripCh v.data) with
    | none => cellText
    | some num =>
      serialize_dev (dedupe_by_key
        ((parse_dev_tokens cellText).filter
            (fun e => !(decide (e.year = current_year) && decide (asciiUpper e.month_en = m_en)))
          ++ [⟨numeralValue num, current_year, m_en, Kind.REV⟩]))

/-- Parse-filter-dedupe-serialize branch of the save normalisation
(lines 534-539): keep only tokens already bound to the saved year and the
column month. -/
def phase1Parse (year : ℕ) (m_en : String) (raw : List Char) : String :=
  serialize_dev (dedupe_by_key
    ((parseDevTokensCh raw).filter
      (fun e => decide (e.year = year) && decide (asciiUpper e.month_en = m_en))))

/-- Embedding of the per-cell normalisation of save_grid_df_for_year
(lines 523-539): blank stays blank; a value that is exactly one bare number
becomes a single revenue token for the saved year and the column month;
anything else is parsed, filtered to that (year, month) key, deduped and
re-encoded. -/
def phase1Cell (year : ℕ) (m_en : String) (cell : String) : String :=
  if pyStripCh cell.data = [] then ⟨[]⟩
  else
    match searchNumberCh (pyStripCh cell.data) with
    | some num =>
      if pyStripCh cell.data = num then
        ⟨(formatG (numeralValue num)).data ++ ':' :: natDigits year ++ ';' :: m_en.data⟩
      else phase1Parse year m_en (pyStripCh cell.data)
    | none => phase1Parse year m_en (pyStripCh cell.data)

/-- One row of the rebuilt bookings ledger (lines 571-577). -/
structure LedgerRow where
  year : ℕ
  floor : String
  month : String
  day : ℕ
  price : ℚ
deriving DecidableEq

/-- Rows emitted for one cell of one dev file by the ledger rebuild scan
(lines 566-577): parse, dedupe, one row per surviving token, the year and
price taken from the token and the month from the file name. -/
def rowsFromFileCell (month_gr floor : String) (day : ℕ) (val : String) : List LedgerRow :=
  (dedupe_by_key (parse_dev_tokens val)).map
    (fun e => ⟨e.year, floor, month_gr, day, e.price⟩)

/-- Greek month names, the MONTHS constant (lines 40-53). -/
def MONTHS : List String :=
  ["Ιανουάριος", "Φεβρουάριος", "Μάρτιος", "Απρίλιος", "Μάιος", "Ιούνιος",
   "Ιούλιος", "Αύγουστος", "Σεπτέμβριος", "Οκτώβριος", "Νοέμβριος", "Δεκέμβριος"]

/-- The MONTH_EN mapping (lines 58-71) as an ordered pair list, preserving
the dict iteration order used by the reverse lookup of the ledger scan. -/
def MONTH_EN_PAIRS : List (String × String) :=
  [("Ιανουάριος", "JANUARY"), ("Φεβρουάριος", "FEBRUARY"), ("Μάρτιος", "MARCH"),
   ("Απρίλιος", "APRIL"), ("Μάιος", "MAY"), ("Ιούνιος", "JUNE"),
   ("Ιούλιος", "JULY"), ("Αύγουστος", "AUGUST"), ("Σεπτέμβριος", "SEPTEMBER"),
   ("Οκτώβριος", "OCTOBER"), ("Νοέμβριος", "NOVEMBER"), ("Δεκέμβριος", "DECEMBER")]

/-- The twelve canonical month codes, values of MONTH_EN. -/
def MONTH_EN_VALUES : List String := MONTH_EN_PAIRS.map (fun p => p.2)

/-- Lookup of MONTH_EN for a Greek month name (month_en_of, line 195). -/
def monthEnOf (m : String) : String :=
  ((MONTH_EN_PAIRS.find? (fun p => p.1 == m)).map (fun p => p.2)).getD ⟨[]⟩

/-- Reverse lookup used by the ledger scan (line 554): the first Greek name
whose English code equals the given one. -/
def monthGrOf (en : String) : Option String :=
  (MONTH_EN_PAIRS.find? (fun p => p.2 == en)).map (fun p => p.1)

/-- The FLOORS_DISPLAY constant (line 78). -/
def FLOORS_DISPLAY : List String := [⟨['Ι', 'σ', 'ό', 'γ', 'ε', 'ι', 'ο']⟩, ⟨['Α']⟩, ⟨['Β']⟩]

/-- Days 1 to 31, the DAYS constant (line 38). -/
def DAYS : List ℕ := (List.range 31).map (fun n => n + 1)

/-- Rows emitted for one cell of the grid being saved for one year: the
phase 1 normalisation writes the cell into the per-month file and the
phase 2 scan re-reads it; the composition is what the saved grid
contributes to the rebuilt ledger for that cell. -/
def cellLedgerRows (year : ℕ) (month_gr floor : String) (day : ℕ) (cell : String) :
    List LedgerRow :=
  rowsFromFileCell month_gr floor day (phase1Cell year (monthEnOf month_gr) cell)

/-- One dev file visited by the ledger scan: the year and month code from
its name, the floor columns present in its sheet, and its cell texts. -/
structure DevFile where
  year : ℕ
  month_en : String
  cols : List String
  cell : String → ℕ → String

/-- Rows contributed by one dev file (lines 547-577): skip files whose
month code has no Greek name, then visit the present floor columns and all
days in order. -/
def fileRecs (f : DevFile) : List LedgerRow :=
  match monthGrOf f.month_en with
  | none => []
  | some gr =>
    (FLOORS_DISPLAY.filter (fun fl => f.cols.contains fl)).flatMap
      (fun fl => DAYS.flatMap (fun d => rowsFromFileCell gr fl d (f.cell fl d)))

/-- Sort key of the ledger DataFrame: the columns year, month, floor, day,
in that order, strings compared lexicographically by code point exactly as
pandas compares Python strings. -/
def rowKeyL (r : LedgerRow) : Lex (ℕ × Lex (String × Lex (String × ℕ))) :=
  toLex (r.year, toLex (r.month, toLex (r.floor, r.day)))

/-- Boolean comparison realising the sort of the ledger rows. -/
def rowLE (a b : LedgerRow) : Bool := decide (rowKeyL a ≤ rowKeyL b)

/-- Embedding of the ledger rebuild of save_grid_df_for_year
(lines 546-578): concatenate the rows of all dev files and sort them by
year, month, floor, day. -/
def gridToLedger (files : List DevFile) : List LedgerRow :=
  (files.flatMap fileRecs).mergeSort rowLE

/-- Pairwise distinctness of the (year, upper month) keys of a token list,
the cell invariant of the specification. -/
def distinctKeys (toks : List DevTok) : Prop := (toks.map keyOf).Nodup

instance decDistinctKeys (toks : List DevTok) : Decidable (distinctKeys toks) :=
  inferInstanceAs (Decidable ((toks.map keyOf).Nodup))

/-- A month string made of uppercase ASCII letters.  Every month produced
by the token regex and every canonical month code satisfies it. -/
def monthAlpha (m : String) : Bool := m.data.all isUpperCh

/-- Price whose percent-g rendering parses back to the same value, the
exactness condition on one price for the encode-decode round trip. -/
def priceRT (p : ℚ) : Prop := parseNum (formatG p).data = some (p, [])

instance decPriceRT (p : ℚ) : Decidable (priceRT p) :=
  inferInstanceAs (Decidable (parseNum (formatG p).data = some (p, [])))

/-- Characters that can occur in percent-g output: digits, the decimal
point, the exponent letter and the two signs. -/
def safeCh (c : Char) : Bool :=
  isDigitCh c || decide (c = '.') || decide (c = 'e') || decide (c = '+') || decide (c = '-')

/-- A sequence of booking-form updates, each one a triple of the selected
year, the column month code and the submitted text, applied left to right
to one cell. -/
def applyOps (ops : List (ℕ × String × String)) (s : String) : String :=
  ops.foldl (fun acc op => applyFormValue op.1 op.2.1 acc op.2.2) s

/-- A dev file whose every token is bound to the file's own year and month
code: the invariant phase 1 of the save establishes for the files it
writes. -/
def fileConsistent (f : DevFile) : Prop :=
  ∀ fl ∈ FLOORS_DISPLAY, ∀ d ∈ DAYS, ∀ t ∈ parse_dev_tokens (f.cell fl d),
    t.year = f.year ∧ asciiUpper t.month_en = f.month_en

instance decFileConsistent (f : DevFile) : Decidable (fileConsistent f) :=
  inferInstanceAs (Decidable (∀ fl ∈ FLOORS_DISPLAY, ∀ d ∈ DAYS,
    ∀ t ∈ parse_dev_tokens (f.cell fl d),
      t.year = f.year ∧ asciiUpper t.month_en = f.month_en))

/-- A concrete April dev file holding one booking, used to exercise the
ledger rebuild. -/
def sampleFileA : DevFile :=
  ⟨2024, ("APRIL"), FLOORS_DISPLAY,
    fun _ d => if d = 1 then ("100:2024;APRIL") else ("")⟩

/-- A concrete May dev file holding one expense, used to exercise the
ledger rebuild. -/
def sampleFileB : DevFile :=
  ⟨2024, ("MAY"), FLOORS_DISPLAY,
    fun _ d => if d = 2 then ("50:2024;MAY;EX") else ("")⟩

/-- Plain sort-key tuple of a ledger row: year, month, floor, day. -/
def rowKey (r : LedgerRow) : ℕ × String × String × ℕ := (r.year, r.month, r.floor, r.day)

/-! Character class facts. -/

theorem isDigitCh_iff {c : Char} : isDigitCh c = true ↔ '0' ≤ c ∧ c ≤ '9' := by
  simp [isDigitCh]

theorem isUpperCh_iff {c : Char} : isUpperCh c = true ↔ 'A' ≤ c ∧ c ≤ 'Z' := by
  simp [isUpperCh]

theorem digit_not_space {c : Char} (h : isDigitCh c = true) : isSpaceCh c = false := by
  obtain ⟨h1, _⟩ := isDigitCh_iff.mp h
  rw [Bool.eq_false_iff]
  intro hs
  simp only [isSpaceCh, Bool.or_eq_true, decide_eq_true_eq] at hs
  rcases hs with ((((he | he) | he) | he) | he) | he <;>
    (subst he; exact absurd h1 (by decide))

theorem digit_ne_comma {c : Char} (h : isDigitCh c = true) : c ≠ ',' := by
  obtain ⟨h1, _⟩ := isDigitCh_iff.mp h
  intro he
  exact absurd (he ▸ h1) (by decide)

theorem digit_ne_colon {c : Char} (h : isDigitCh c = true) : c ≠ ':' := by
  obtain ⟨_, h2⟩ := isDigitCh_iff.mp h
  intro he
  exact absurd (he ▸ h2) (by decide)

theorem digit_ne_semicolon {c : Char} (h : isDigitCh c = true) : c ≠ ';' := by
  obtain ⟨_, h2⟩ := isDigitCh_iff.mp h
  intro he
  exact absurd (he ▸ h2) (by decide)

theorem digit_ne_dot {c : Char} (h : isDigitCh c = true) : c ≠ '.' := by
  obtain ⟨h1, _⟩ := isDigitCh_iff.mp h
  intro he
  exact absurd (he ▸ h1) (by decide)

theorem upper_not_space {c : Char} (h : isUpperCh c = true) : isSpaceCh c = false := by
  obtain ⟨h1, _⟩ := isUpperCh_iff.mp h
  rw [Bool.eq_false_iff]
  intro hs
  simp only [isSpaceCh, Bool.or_eq_true, decide_eq_true_eq] at hs
  rcases hs with ((((he | he) | he) | he) | he) | he <;>
    (subst he; exact absurd h1 (by decide))

theorem upper_ne_comma {c : Char} (h : isUpperCh c = true) : c ≠ ',' := by
  obtain ⟨h1, _⟩ := isUpperCh_iff.mp h
  intro he
  exact absurd (he ▸ h1) (by decide)

theorem upper_not_digit {c : Char} (h : isUpperCh c = true) : isDigitCh c = false := by
  obtain ⟨h1, _⟩ := isUpperCh_iff.mp h
  rw [Bool.eq_false_iff]
  intro hd
  obtain ⟨_, hd2⟩ := isDigitCh_iff.mp hd
  exact absurd (le_trans h1 hd2) (by decide)

theorem upper_ne_semicolon {c : Char} (h : isUpperCh c = true) : c ≠ ';' := by
  obtain ⟨h1, _⟩ := isUpperCh_iff.mp h
  intro he
  exact absurd (he ▸ h1) (by decide)

theorem asciiUpperCh_of_upper {c : Char} (h : isUpperCh c = true) : asciiUpperCh c = c := by
  obtain ⟨_, h2⟩ := isUpperCh_iff.mp h
  have : ¬ ('a' ≤ c) := fun hc => absurd (lt_of_lt_of_le (by decide : ('Z' : Char) < 'a') hc)
    (not_lt.mpr h2)
  simp [asciiUpperCh, this]

theorem safe_of_digit {c : Char} (h : isDigitCh c = true) : safeCh c = true := by
  simp [safeCh, h]

theorem safe_not_space {c : Char} (h : safeCh c = true) : isSpaceCh c = false := by
  simp only [safeCh, Bool.or_eq_true, decide_eq_true_eq] at h
  rcases h with ((((hd | he) | he) | he) | he)
  · exact digit_not_space hd
  all_goals subst he; decide

theorem safe_ne_comma {c : Char} (h : safeCh c = true) : c ≠ ',' := by
  simp only [safeCh, Bool.or_eq_true, decide_eq_true_eq] at h
  rcases h with ((((hd | he) | he) | he) | he)
  · exact digit_ne_comma hd
  all_goals subst he; decide

theorem safe_ne_colon {c : Char} (h : safeCh c = true) : c ≠ ':' := by
  simp only [safeCh, Bool.or_eq_true, decide_eq_true_eq] at h
  rcases h with ((((hd | he) | he) | he) | he)
  · exact digit_ne_colon hd
  all_goals subst he; decide

/-! Facts about takeDigits and takeUpper. -/

theorem takeDigits_spec : ∀ cs : List Char,
    (takeDigits cs).1 ++ (takeDigits cs).2 = cs
    ∧ (∀ c ∈ (takeDigits cs).1, isDigitCh c = true)
    ∧ (∀ c, (takeDigits cs).2.head? = some c → isDigitCh c = false) := by
  intro cs
  induction cs with
  | nil => simp [takeDigits]
  | cons c cs ih =>
    by_cases h : isDigitCh c = true
    · simp only [takeDigits, h, if_true]
      obtain ⟨ih1, ih2, ih3⟩ := ih
      refine ⟨by simpa using ih1, ?_, ih3⟩
      intro d hd
      rcases List.mem_cons.mp hd with he | hm
      · exact he ▸ h
      · exact ih2 d hm
    · rw [Bool.not_eq_true] at h
      simp [takeDigits, h]

theorem takeDigits_all_digits {ds : List Char} (h : ∀ c ∈ ds, isDigitCh c = true) :
    takeDigits ds = (ds, []) := by
  induction ds with
  | nil => rfl
  | cons c cs ih =>
    have hc := h c (List.mem_cons_self c cs)
    simp only [takeDigits, hc, if_true, ih (fun d hd => h d (List.mem_cons_of_mem c hd))]

theorem takeDigits_app {ds : List Char} (h : ∀ c ∈ ds, isDigitCh c = true)
    {c : Char} (hc : isDigitCh c = false) (r : List Char) :
    takeDigits (ds ++ c :: r) = (ds, c :: r) := by
  induction ds with
  | nil => simp [takeDigits, hc]
  | cons d dsx ih =>
    have hd := h d (List.mem_cons_self d dsx)
    have ihx := ih (fun x hx => h x (List.mem_cons_of_mem d hx))
    simp only [List.cons_append, takeDigits, hd, if_true, List.append_eq, ihx]

theorem takeUpper_spec : ∀ cs : List Char,
    (takeUpper cs).1 ++ (takeUpper cs).2 = cs
    ∧ (∀ c ∈ (takeUpper cs).1, isUpperCh c = true)
    ∧ (∀ c, (takeUpper cs).2.head? = some c → isUpperCh c = false) := by
  intro cs
  induction cs with
  | nil => simp [takeUpper]
  | cons c cs ih =>
    by_cases h : isUpperCh c = true
    · simp only [takeUpper, h, if_true]
      obtain ⟨ih1, ih2, ih3⟩ := ih
      refine ⟨by simpa using ih1, ?_, ih3⟩
      intro d hd
      rcases List.mem_cons.mp hd with he | hm
      · exact he ▸ h
      · exact ih2 d hm
    · rw [Bool.not_eq_true] at h
      simp [takeUpper, h]

theorem takeUpper_app {us : List Char} (h : ∀ c ∈ us, isUpperCh c = true)
    {r : List Char} (hr : ∀ c, r.head? = some c → isUpperCh c = false) :
    takeUpper (us ++ r) = (us, r) := by
  induction us with
  | nil =>
    cases r with
    | nil => rfl
    | cons c rs =>
      have := hr c rfl
      simp [takeUpper, this]
  | cons u usx ih =>
    have hu := h u (List.mem_cons_self u usx)
    have ihx := ih (fun x hx => h x (List.mem_cons_of_mem u hx))
    simp only [List.cons_append, takeUpper, hu, if_true, List.append_eq, ihx]

/-! Facts about comma splitting and joining. -/

theorem splitCommaCh_ne_nil : ∀ r : List Char, splitCommaCh r ≠ [] := by
  intro r
  induction r with
  | nil => simp [splitCommaCh]
  | cons c cs ih =>
    rcases hs : splitCommaCh cs with _ | ⟨s, rest⟩
    · exact absurd hs ih
    · simp only [splitCommaCh, hs]
      split <;> simp

theorem splitComma_no_comma {p : List Char} (h : ∀ c ∈ p, c ≠ ',') :
    splitCommaCh p = [p] := by
  induction p with
  | nil => rfl
  | cons c cs ih =>
    have hc := h c (List.mem_cons_self c cs)
    have ihx := ih (fun d hd => h d (List.mem_cons_of_mem c hd))
    simp only [splitCommaCh, ihx]
    rw [if_neg hc]

theorem splitComma_app {p : List Char} (h : ∀ c ∈ p, c ≠ ',') (r : List Char) :
    splitCommaCh (p ++ ',' :: r) = p :: splitCommaCh r := by
  induction p with
  | nil =>
    show splitCommaCh (',' :: r) = [] :: splitCommaCh r
    rcases hs : splitCommaCh r with _ | ⟨s, rest⟩
    · exact absurd hs (splitCommaCh_ne_nil r)
    · simp [splitCommaCh, hs]
  | cons c cs ih =>
    have hc := h c (List.mem_cons_self c cs)
    have ihx := ih (fun d hd => h d (List.mem_cons_of_mem c hd))
    simp only [List.cons_append, splitCommaCh, List.append_eq, ihx]
    rw [if_neg hc]

theorem split_join {ps : List (List Char)} (hne : ps ≠ [])
    (h : ∀ p ∈ ps, ∀ c ∈ p, c ≠ ',') : splitCommaCh (joinComma ps) = ps := by
  induction ps with
  | nil => exact absurd rfl hne
  | cons p ps ih =>
    cases ps with
    | nil =>
      exact splitComma_no_comma (h p (List.mem_cons_self p []))
    | cons q qs =>
      have hjoin : joinComma (p :: q :: qs) = p ++ ',' :: joinComma (q :: qs) := rfl
      rw [hjoin, splitComma_app (h p (List.mem_cons_self p (q :: qs))),
        ih (by simp) (fun x hx => h x (List.mem_cons_of_mem p hx))]

/-! Facts about stripping. -/

theorem dropWhile_all_false {p : Char → Bool} {cs : List Char}
    (h : ∀ c ∈ cs, p c = false) : cs.dropWhile p = cs := by
  cases cs with
  | nil => rfl
  | cons c cs => simp [List.dropWhile_cons, h c (List.mem_cons_self c cs)]

theorem pyStrip_id {cs : List Char} (h : ∀ c ∈ cs, isSpaceCh c = false) :
    pyStripCh cs = cs := by
  unfold pyStripCh
  rw [dropWhile_all_false h, dropWhile_all_false (fun c hc => h c (List.mem_reverse.mp hc)),
    List.reverse_reverse]

/-! Facts about decimal digit rendering of naturals. -/

theorem digitChar_isDigit : ∀ n, n < 10 → isDigitCh (Nat.digitChar n) = true := by decide

theorem digitVal_digitChar : ∀ n, n < 10 → digitVal (Nat.digitChar n) = n := by decide

theorem natDigitsFuel_stable : ∀ n f g : ℕ, n < f → n < g →
    natDigitsFuel f n = natDigitsFuel g n := by
  intro n
  induction n using Nat.strong_induction_on with
  | _ n ih =>
    intro f g hf hg
    cases f with
    | zero => omega
    | succ f =>
      cases g with
      | zero => omega
      | succ g =>
        by_cases h10 : n < 10
        · simp [natDigitsFuel, h10]
        · have hd : n / 10 < n := Nat.div_lt_self (by omega) (by omega)
          simp only [natDigitsFuel, h10, if_false]
          rw [ih (n / 10) hd f g (by omega) (by omega)]

theorem natDigits_unfold (n : ℕ) :
    natDigits n = if n < 10 then [Nat.digitChar n]
      else natDigits (n / 10) ++ [Nat.digitChar (n % 10)] := by
  by_cases h10 : n < 10
  · simp only [natDigits, natDigitsFuel, if_pos h10]
  · have hd : n / 10 < n := Nat.div_lt_self (by omega) (by omega)
    simp only [natDigits, natDigitsFuel, if_neg h10]
    congr 1
    exact natDigitsFuel_stable (n / 10) n (n / 10 + 1) (by omega) (by omega)

theorem natDigits_all_digit : ∀ n : ℕ, ∀ c ∈ natDigits n, isDigitCh c = true := by
  intro n
  induction n using Nat.strong_induction_on with
  | _ n ih =>
    intro c hc
    rw [natDigits_unfold] at hc
    by_cases h10 : n < 10
    · rw [if_pos h10] at hc
      simp only [List.mem_singleton] at hc
      exact hc ▸ digitChar_isDigit n h10
    · rw [if_neg h10] at hc
      rcases List.mem_append.mp hc with hm | hm
      · exact ih (n / 10) (Nat.div_lt_self (by omega) (by omega)) c hm
      · simp only [List.mem_singleton] at hm
        exact hm ▸ digitChar_isDigit (n % 10) (Nat.mod_lt n (by omega))

theorem natOfDigits_concat (xs : List Char) (c : Char) :
    natOfDigits (xs ++ [c]) = 10 * natOfDigits xs + digitVal c := by
  simp [natOfDigits, List.foldl_append]

theorem natOfDigits_natDigits : ∀ n : ℕ, natOfDigits (natDigits n) = n := by
  intro n
  induction n using Nat.strong_induction_on with
  | _ n ih =>
    rw [natDigits_unfold]
    by_cases h10 : n < 10
    · simp only [if_pos h10, natOfDigits, List.foldl_cons, List.foldl_nil]
      rw [digitVal_digitChar n h10]
      omega
    · rw [if_neg h10, natOfDigits_concat,
        ih (n / 10) (Nat.div_lt_self (by omega) (by omega)),
        digitVal_digitChar (n % 10) (Nat.mod_lt n (by omega))]
      omega

theorem natDigits_len_le : ∀ k n : ℕ, 1 ≤ k → n < 10 ^ k → (natDigits n).length ≤ k := by
  intro k
  induction k with
  | zero => omega
  | succ k ih =>
    intro n _ hn
    rw [natDigits_unfold]
    by_cases h10 : n < 10
    · rw [if_pos h10]
      simp only [List.length_singleton]
      omega
    · rw [if_neg h10]
      have hk : 1 ≤ k := by
        by_contra hk0
        have hkz : k = 0 := by omega
        subst hkz
        have hp : (10 : ℕ) ^ (0 + 1) = 10 := by norm_num
        rw [hp] at hn
        omega
      have : n / 10 < 10 ^ k := by
        rw [Nat.div_lt_iff_lt_mul (by omega)]
        calc n < 10 ^ (k + 1) := hn
        _ = 10 ^ k * 10 := by ring
      simp only [List.length_append, List.length_singleton]
      have := ih (n / 10) hk this
      omega

theorem natDigits_four {y : ℕ} (h1 : 1000 ≤ y) (h2 : y < 10000) :
    natDigits y = [Nat.digitChar (y / 1000), Nat.digitChar (y / 100 % 10),
      Nat.digitChar (y / 10 % 10), Nat.digitChar (y % 10)] := by
  rw [natDigits_unfold, if_neg (by omega), natDigits_unfold, if_neg (by omega),
    natDigits_unfold, if_neg (by omega), natDigits_unfold, if_pos (by omega)]
  have e1 : y / 10 / 10 = y / 100 := by omega
  rw [e1]
  have e2 : y / 100 / 10 = y / 1000 := by omega
  rw [e2]
  simp

/-! Numeric bridging facts. -/

theorem char_toNat_le {a b : Char} (h : a ≤ b) : a.toNat ≤ b.toNat := Char.le_def.mp h

theorem digitVal_le9 {c : Char} (h : isDigitCh c = true) : digitVal c ≤ 9 := by
  obtain ⟨_, h2⟩ := isDigitCh_iff.mp h
  have h3 := char_toNat_le h2
  have h9 : ('9' : Char).toNat = 57 := rfl
  rw [h9] at h3
  have h0 : ('0' : Char).toNat = 48 := rfl
  unfold digitVal
  rw [h0]
  omega

theorem take4_le {l : List Char} {y : ℕ} {r : List Char}
    (h : take4Digits l = some (y, r)) : y ≤ 9999 := by
  rcases l with _ | ⟨a, _ | ⟨b, _ | ⟨c, _ | ⟨d, rest⟩⟩⟩⟩
  · simp [take4Digits] at h
  · simp [take4Digits] at h
  · simp [take4Digits] at h
  · simp [take4Digits] at h
  · simp only [take4Digits] at h
    by_cases hcond : (isDigitCh a && isDigitCh b && isDigitCh c && isDigitCh d) = true
    · rw [if_pos hcond] at h
      simp only [Bool.and_eq_true] at hcond
      obtain ⟨⟨⟨ha, hb⟩, hc⟩, hd⟩ := hcond
      have va := digitVal_le9 ha
      have vb := digitVal_le9 hb
      have vc := digitVal_le9 hc
      have vd := digitVal_le9 hd
      simp only [Option.some.injEq, Prod.mk.injEq] at h
      obtain ⟨hy, _⟩ := h
      rw [← hy]
      simp only [natOfDigits, List.foldl_cons, List.foldl_nil]
      omega
    · rw [if_neg hcond] at h
      exact absurd h (by simp)

theorem take4_natDigits {y : ℕ} (h1 : 1000 ≤ y) (h2 : y < 10000) (r : List Char) :
    take4Digits (natDigits y ++ r) = some (y, r) := by
  have h4 := natDigits_four h1 h2
  have hval : natOfDigits [Nat.digitChar (y / 1000), Nat.digitChar (y / 100 % 10),
      Nat.digitChar (y / 10 % 10), Nat.digitChar (y % 10)] = y := by
    rw [← h4, natOfDigits_natDigits]
  rw [h4]
  simp only [List.cons_append, List.nil_append, take4Digits]
  rw [digitChar_isDigit _ (by omega), digitChar_isDigit _ (by omega),
    digitChar_isDigit _ (by omega), digitChar_isDigit _ (by omega)]
  simp only [Bool.and_self, if_pos]
  rw [hval]

theorem take4_short {pre : List Char} (h : pre.length ≤ 3) (r : List Char) :
    take4Digits (pre ++ ';' :: r) = none := by
  have hsemi : isDigitCh ';' = false := by decide
  rcases pre with _ | ⟨a, _ | ⟨b, _ | ⟨c, _ | ⟨d, rest⟩⟩⟩⟩
  · rcases r with _ | ⟨r0, _ | ⟨r1, _ | ⟨r2, rr⟩⟩⟩ <;> simp [take4Digits, hsemi]
  · rcases r with _ | ⟨r0, _ | ⟨r1, rr⟩⟩ <;> simp [take4Digits, hsemi]
  · rcases r with _ | ⟨r0, rr⟩ <;> simp [take4Digits, hsemi]
  · simp [take4Digits, hsemi]
  · simp at h

/-! Facts about uppercasing. -/

theorem map_asciiUpper_id {l : List Char} (h : ∀ c ∈ l, isUpperCh c = true) :
    l.map asciiUpperCh = l := by
  induction l with
  | nil => rfl
  | cons c cs ih =>
    rw [List.map_cons, asciiUpperCh_of_upper (h c (List.mem_cons_self c cs)),
      ih (fun d hd => h d (List.mem_cons_of_mem c hd))]

theorem asciiUpper_of_monthAlpha {m : String} (h : monthAlpha m = true) :
    asciiUpper m = m := by
  unfold monthAlpha at h
  rcases m with ⟨data⟩
  unfold asciiUpper
  rw [map_asciiUpper_id (List.all_eq_true.mp h)]

/-! Shape of successful parseNum results with empty rest, and how they
extend under a trailing nondigit character. -/

theorem parseNum_empty_rest {ns : List Char} {v : ℚ} (h : parseNum ns = some (v, [])) :
    (ns ≠ [] ∧ (∀ c ∈ ns, isDigitCh c = true) ∧ v = ratOfNumeral ns [])
    ∨ (∃ ds fs, ns = ds ++ '.' :: fs ∧ ds ≠ [] ∧ fs ≠ []
        ∧ (∀ c ∈ ds, isDigitCh c = true) ∧ (∀ c ∈ fs, isDigitCh c = true)
        ∧ v = ratOfNumeral ds fs) := by
  obtain ⟨hsplit, hdig, hhead⟩ := takeDigits_spec ns
  rcases htd : takeDigits ns with ⟨fd, fr⟩
  rw [htd] at hsplit hdig hhead
  dsimp only at hsplit hdig hhead
  unfold parseNum at h
  rw [htd] at h
  rcases fd with _ | ⟨d, ds⟩
  · simp at h
  · rcases fr with _ | ⟨c, r2⟩
    · left
      rw [List.append_nil] at hsplit
      subst hsplit
      simp only [Option.some.injEq, Prod.mk.injEq] at h
      exact ⟨by simp, hdig, h.1.symm⟩
    · dsimp only at h
      by_cases hc : c = '.'
      · rw [if_pos hc] at h
        subst hc
        obtain ⟨hsplit2, hdig2, hhead2⟩ := takeDigits_spec r2
        rcases htd2 : takeDigits r2 with ⟨fd2, fr2⟩
        rw [htd2] at hsplit2 hdig2 hhead2 h
        dsimp only at hsplit2 hdig2 hhead2
        rcases fd2 with _ | ⟨f, fs⟩
        · simp at h
        · simp only [Option.some.injEq, Prod.mk.injEq] at h
          obtain ⟨hv, hr⟩ := h
          subst hr
          rw [List.append_nil] at hsplit2
          subst hsplit2
          right
          exact ⟨d :: ds, f :: fs, hsplit.symm, by simp, by simp, hdig, hdig2, hv.symm⟩
      · rw [if_neg hc] at h
        simp at h

theorem parseNum_digits_rest {ds : List Char} (hne : ds ≠ [])
    (hd : ∀ c ∈ ds, isDigitCh c = true) {c : Char} (hcd : isDigitCh c = false)
    (hdot : c ≠ '.') (r : List Char) :
    parseNum (ds ++ c :: r) = some (ratOfNumeral ds [], c :: r) := by
  unfold parseNum
  rw [takeDigits_app hd hcd]
  rcases ds with _ | ⟨d, dsx⟩
  · exact absurd rfl hne
  · dsimp only
    rw [if_neg hdot]

theorem parseNum_frac_rest {ds fs : List Char} (hdne : ds ≠ []) (hfne : fs ≠ [])
    (hd : ∀ c ∈ ds, isDigitCh c = true) (hf : ∀ c ∈ fs, isDigitCh c = true)
    {c : Char} (hcd : isDigitCh c = false) (r : List Char) :
    parseNum (ds ++ '.' :: fs ++ c :: r) = some (ratOfNumeral ds fs, c :: r) := by
  unfold parseNum
  have hdot : isDigitCh '.' = false := by decide
  have happ : ds ++ '.' :: fs ++ c :: r = ds ++ '.' :: (fs ++ c :: r) := by simp
  rw [happ, takeDigits_app hd hdot]
  rcases ds with _ | ⟨d, dsx⟩
  · exact absurd rfl hdne
  · dsimp only
    rw [if_pos rfl, takeDigits_app hf hcd]
    rcases fs with _ | ⟨f, fsx⟩
    · exact absurd rfl hfne
    · dsimp only

theorem parseNum_extend {ns : List Char} {v : ℚ} (h : parseNum ns = some (v, []))
    {c : Char} (hcd : isDigitCh c = false) (hdot : c ≠ '.') (r : List Char) :
    parseNum (ns ++ c :: r) = some (v, c :: r) := by
  rcases parseNum_empty_rest h with ⟨hne, hd, hv⟩ | ⟨ds, fs, hns, hdne, hfne, hd, hf, hv⟩
  · rw [hv]
    exact parseNum_digits_rest hne hd hcd hdot r
  · subst hns
    rw [hv]
    have : ds ++ '.' :: fs ++ c :: r = ds ++ '.' :: fs ++ c :: r := rfl
    have happ : (ds ++ '.' :: fs) ++ c :: r = ds ++ '.' :: fs ++ c :: r := by simp
    rw [happ]
    exact parseNum_frac_rest hdne hfne hd hf hcd r

/-! Properties of successful token matches. -/

theorem matchTok_props {cs : List Char} {t : DevTok} (h : matchTokenCh cs = some t) :
    t.month_en.data ≠ [] ∧ (∀ c ∈ t.month_en.data, isUpperCh c = true) ∧ t.year ≤ 9999 := by
  unfold matchTokenCh at h
  rcases hp : parseNum cs with _ | ⟨p, r1⟩ <;> rw [hp] at h
  · simp at h
  · rcases r1 with _ | ⟨c1, r2⟩
    · simp at h
    · dsimp only at h
      by_cases hc1 : c1 = ':'
      case neg =>
        rw [if_neg hc1] at h
        simp at h
      rw [if_pos hc1] at h
      rcases h4 : take4Digits r2 with _ | ⟨y4, r3⟩ <;> rw [h4] at h
      · simp at h
      · rcases r3 with _ | ⟨c2, r4⟩
        · simp at h
        · dsimp only at h
          by_cases hc2 : c2 = ';'
          case neg =>
            rw [if_neg hc2] at h
            simp at h
          rw [if_pos hc2] at h
          obtain ⟨hsp, hup, _⟩ := takeUpper_spec r4
          rcases htu : takeUpper r4 with ⟨us, r5⟩
          rw [htu] at h hsp hup
          dsimp only at hsp hup h
          rcases us with _ | ⟨m, mo⟩
          · simp at h
          · dsimp only at h
            have hmap : (m :: mo).map asciiUpperCh = m :: mo := map_asciiUpper_id hup
            by_cases h5 : r5 = []
            · rw [if_pos h5] at h
              have ht : (⟨p, y4, ⟨(m :: mo).map asciiUpperCh⟩, Kind.REV⟩ : DevTok) = t := by
                injection h
              subst ht
              refine ⟨by simp [hmap], ?_, take4_le h4⟩
              intro c hc
              dsimp only at hc
              rw [hmap] at hc
              exact hup c hc
            · rw [if_neg h5] at h
              by_cases h5' : r5 = [';', 'E', 'X']
              · rw [if_pos h5'] at h
                have ht : (⟨p, y4, ⟨(m :: mo).map asciiUpperCh⟩, Kind.EX⟩ : DevTok) = t := by
                  injection h
                subst ht
                refine ⟨by simp [hmap], ?_, take4_le h4⟩
                intro c hc
                dsimp only at hc
                rw [hmap] at hc
                exact hup c hc
              · rw [if_neg h5'] at h
                simp at h

theorem parse_tokens_props {cs : List Char} {t : DevTok} (h : t ∈ parseDevTokensCh cs) :
    monthAlpha t.month_en = true ∧ t.month_en.data ≠ [] ∧ t.year ≤ 9999 := by
  unfold parseDevTokensCh at h
  obtain ⟨seg, _, hmm⟩ := List.mem_filterMap.mp h
  obtain ⟨h1, h2, h3⟩ := matchTok_props hmm
  exact ⟨List.all_eq_true.mpr h2, h1, h3⟩

/-! Behaviour of parseNum on a safe prefix followed by a colon: the match
either fails, or consumes exactly the prefix, or stops at a character that
is not the colon (making the token match fail). -/

theorem parseNum_colon_cases (fmt rest : List Char) (hs : ∀ c ∈ fmt, safeCh c = true) :
    parseNum (fmt ++ ':' :: rest) = none
    ∨ (∃ v, parseNum (fmt ++ ':' :: rest) = some (v, ':' :: rest))
    ∨ (∃ v c2 r2, parseNum (fmt ++ ':' :: rest) = some (v, c2 :: r2) ∧ c2 ≠ ':') := by
  have hcol : isDigitCh ':' = false := by decide
  obtain ⟨hsp, hdig, hhead⟩ := takeDigits_spec fmt
  rcases htd : takeDigits fmt with ⟨fd, fr⟩
  rw [htd] at hsp hdig hhead
  dsimp only at hsp hdig hhead
  subst hsp
  rcases fd with _ | ⟨d, ds⟩
  · left
    rcases fr with _ | ⟨c, fr'⟩
    · unfold parseNum
      rw [show takeDigits ([] ++ [] ++ ':' :: rest) = ([], ':' :: rest) by
        simp [takeDigits, hcol]]
    · have hcnd := hhead c rfl
      unfold parseNum
      rw [show ([] : List Char) ++ c :: fr' ++ ':' :: rest = c :: (fr' ++ ':' :: rest) by simp,
        show takeDigits (c :: (fr' ++ ':' :: rest)) = ([], c :: (fr' ++ ':' :: rest)) by
          simp [takeDigits, hcnd]]
  · rcases fr with _ | ⟨c, fr'⟩
    · right
      left
      refine ⟨ratOfNumeral (d :: ds) [], ?_⟩
      rw [show (d :: ds) ++ [] ++ ':' :: rest = (d :: ds) ++ ':' :: rest by simp]
      exact parseNum_digits_rest (by simp) hdig hcol (by decide) rest
    · have hcnd := hhead c rfl
      have hcmem : c ∈ (d :: ds) ++ c :: fr' := by simp
      have hcsafe := hs c hcmem
      by_cases hcdot : c = '.'
      · subst hcdot
        obtain ⟨hsp2, hdig2, hhead2⟩ := takeDigits_spec fr'
        rcases htd2 : takeDigits fr' with ⟨fd2, fr2⟩
        rw [htd2] at hsp2 hdig2 hhead2
        dsimp only at hsp2 hdig2 hhead2
        subst hsp2
        rcases fd2 with _ | ⟨f, fs⟩
        · right
          right
          refine ⟨ratOfNumeral (d :: ds) [], '.', fr2 ++ ':' :: rest, ?_, by decide⟩
          unfold parseNum
          rw [show (d :: ds) ++ '.' :: ([] ++ fr2) ++ ':' :: rest
              = (d :: ds) ++ '.' :: (fr2 ++ ':' :: rest) by simp,
            takeDigits_app hdig (by decide) (fr2 ++ ':' :: rest)]
          dsimp only
          rw [if_pos rfl]
          have hzero : (takeDigits (fr2 ++ ':' :: rest)).1 = []
              ∧ (takeDigits (fr2 ++ ':' :: rest)).2 = fr2 ++ ':' :: rest := by
            rcases fr2 with _ | ⟨c3, fr3⟩
            · simp [takeDigits, hcol]
            · have := hhead2 c3 rfl
              simp [takeDigits, this]
          rcases htz : takeDigits (fr2 ++ ':' :: rest) with ⟨g1, g2⟩
          rw [htz] at hzero
          dsimp only at hzero
          rw [hzero.1]
        · rcases fr2 with _ | ⟨c3, fr3⟩
          · right
            left
            refine ⟨ratOfNumeral (d :: ds) (f :: fs), ?_⟩
            rw [show (d :: ds) ++ '.' :: ((f :: fs) ++ []) ++ ':' :: rest
                = (d :: ds) ++ '.' :: (f :: fs) ++ ':' :: rest by simp]
            exact parseNum_frac_rest (by simp) (by simp) hdig hdig2 hcol rest
          · have hc3 := hhead2 c3 rfl
            have hc3mem : c3 ∈ (d :: ds) ++ '.' :: ((f :: fs) ++ c3 :: fr3) := by simp
            have hc3safe := hs c3 hc3mem
            right
            right
            refine ⟨ratOfNumeral (d :: ds) (f :: fs), c3, fr3 ++ ':' :: rest, ?_,
              safe_ne_colon hc3safe⟩
            rw [show (d :: ds) ++ '.' :: ((f :: fs) ++ c3 :: fr3) ++ ':' :: rest
                = (d :: ds) ++ '.' :: (f :: fs) ++ c3 :: (fr3 ++ ':' :: rest) by simp]
            exact parseNum_frac_rest (by simp) (by simp) hdig hdig2 hc3 (fr3 ++ ':' :: rest)
      · right
        right
        refine ⟨ratOfNumeral (d :: ds) [], c, fr' ++ ':' :: rest, ?_, safe_ne_colon hcsafe⟩
        rw [show (d :: ds) ++ c :: fr' ++ ':' :: rest
            = (d :: ds) ++ c :: (fr' ++ ':' :: rest) by simp]
        exact parseNum_digits_rest (by simp) hdig hcnd hcdot (fr' ++ ':' :: rest)

/-! Characters of percent-g output. -/

theorem mem_stripZerosRight {cs : List Char} {c : Char} (h : c ∈ stripZerosRight cs) :
    c ∈ cs := by
  unfold stripZerosRight at h
  rw [List.mem_reverse] at h
  exact List.mem_reverse.mp ((List.dropWhile_sublist _).subset h)

theorem natDigits_ne_nil (n : ℕ) : natDigits n ≠ [] := by
  rw [natDigits_unfold]
  by_cases h10 : n < 10
  · simp [h10]
  · simp [h10]

theorem formatFixed_safe {ds : List Char} (hd : ∀ c ∈ ds, isDigitCh c = true) (e : ℤ) :
    ∀ c ∈ formatFixed ds e, safeCh c = true := by
  intro c hc
  unfold formatFixed at hc
  by_cases he : 0 ≤ e
  · rw [if_pos he] at hc
    by_cases hfp : stripZerosRight (ds.drop (e.toNat + 1)) = []
    · rw [if_pos hfp] at hc
      exact safe_of_digit (hd c ((List.take_sublist _ _).subset hc))
    · rw [if_neg hfp] at hc
      rcases List.mem_append.mp hc with hc | hc
      · exact safe_of_digit (hd c ((List.take_sublist _ _).subset hc))
      · rcases List.mem_cons.mp hc with rfl | hc
        · decide
        · exact safe_of_digit (hd c ((List.drop_sublist _ _).subset (mem_stripZerosRight hc)))
  · rw [if_neg he] at hc
    rcases List.mem_cons.mp hc with rfl | hc
    · decide
    · rcases List.mem_cons.mp hc with rfl | hc
      · decide
      · rcases List.mem_append.mp hc with hc | hc
        · rw [List.eq_of_mem_replicate hc]
          decide
        · exact safe_of_digit (hd c (mem_stripZerosRight hc))

theorem formatSci_safe {ds : List Char} (hd : ∀ c ∈ ds, isDigitCh c = true) (e : ℤ) :
    ∀ c ∈ formatSci ds e, safeCh c = true := by
  intro c hc
  unfold formatSci at hc
  rcases List.mem_append.mp hc with hm | hm
  · rcases hstrip : stripZerosRight ds with _ | ⟨s, ss⟩ <;> rw [hstrip] at hm
    · rcases List.mem_singleton.mp hm with rfl
      decide
    · dsimp only at hm
      have hss : ∀ x ∈ s :: ss, isDigitCh x = true := by
        intro x hx
        exact hd x (mem_stripZerosRight (hstrip ▸ hx))
      by_cases hnil : ss = []
      · rw [if_pos hnil] at hm
        rcases List.mem_singleton.mp hm with rfl
        exact safe_of_digit (hss c (List.mem_cons_self _ _))
      · rw [if_neg hnil] at hm
        rcases List.mem_cons.mp hm with rfl | hm
        · exact safe_of_digit (hss c (List.mem_cons_self _ _))
        · rcases List.mem_cons.mp hm with rfl | hm
          · decide
          · exact safe_of_digit (hss c (List.mem_cons_of_mem _ hm))
  · rcases List.mem_cons.mp hm with rfl | hm
    · decide
    · rcases List.mem_cons.mp hm with rfl | hm
      · by_cases hneg : e < 0 <;> simp only [hneg, if_true, if_false] <;> decide
      · by_cases hlen : (natDigits (if e < 0 then -e else e).toNat).length = 1
        · rw [if_pos hlen] at hm
          rcases List.mem_cons.mp hm with rfl | hm
          · decide
          · exact safe_of_digit (natDigits_all_digit _ c hm)
        · rw [if_neg hlen] at hm
          exact safe_of_digit (natDigits_all_digit _ c hm)

theorem formatPos_safe (x : ℚ) : ∀ c ∈ formatPos x, safeCh c = true := by
  intro c hc
  unfold formatPos at hc
  have hd := natDigits_all_digit (sixDigitsRound x).1
  by_cases hcond : (decide (-4 ≤ (sixDigitsRound x).2) && decide ((sixDigitsRound x).2 < 6))
      = true
  · rw [if_pos hcond] at hc
    exact formatFixed_safe hd _ c hc
  · rw [if_neg hcond] at hc
    exact formatSci_safe hd _ c hc

theorem formatG_safe (x : ℚ) : ∀ c ∈ (formatG x).data, safeCh c = true := by
  intro c hc
  unfold formatG at hc
  by_cases h0 : x = 0
  · rw [if_pos h0] at hc
    rcases List.mem_singleton.mp hc with rfl
    decide
  · rw [if_neg h0] at hc
    by_cases hneg : x < 0
    · rw [if_pos hneg] at hc
      rcases List.mem_cons.mp hc with rfl | hc
      · decide
      · exact formatPos_safe _ c hc
    · rw [if_neg hneg] at hc
      exact formatPos_safe _ c hc

/-! Characters of a serialized token. -/

theorem serializeTok_chars {t : DevTok} (hm : monthAlpha t.month_en = true) :
    ∀ c ∈ serializeTokCh t, c ≠ ',' ∧ isSpaceCh c = false := by
  intro c hc
  unfold serializeTokCh at hc
  rw [asciiUpper_of_monthAlpha hm] at hc
  have hup : ∀ x ∈ t.month_en.data, isUpperCh x = true := by
    unfold monthAlpha at hm
    exact List.all_eq_true.mp hm
  simp only [List.append_assoc, List.cons_append, List.mem_append, List.mem_cons] at hc
  rcases hc with hc | rfl | hc | rfl | hc | hc
  · have := formatG_safe t.price c hc
    exact ⟨safe_ne_comma this, safe_not_space this⟩
  · refine ⟨by decide, by decide⟩
  · have := natDigits_all_digit t.year c hc
    exact ⟨digit_ne_comma this, digit_not_space this⟩
  · refine ⟨by decide, by decide⟩
  · have := hup c hc
    exact ⟨upper_ne_comma this, upper_not_space this⟩
  · cases hk : t.kind
    · rw [hk] at hc
      simp [kindSuffix] at hc
    · rw [hk] at hc
      simp only [kindSuffix, List.mem_cons, List.not_mem_nil, or_false] at hc
      rcases hc with rfl | (rfl | rfl) <;> exact ⟨by decide, by decide⟩

theorem serializeTok_ne_nil (t : DevTok) : serializeTokCh t ≠ [] := by
  unfold serializeTokCh
  intro h
  have := congrArg List.length h
  simp only [List.length_append, List.length_cons, List.length_nil] at this
  omega

/-! Parsing the serialization of a token list. -/

theorem parse_serialize {l : List DevTok} (hm : ∀ t ∈ l, monthAlpha t.month_en = true) :
    parse_dev_tokens (serialize_dev l)
      = l.filterMap (fun t => matchTokenCh (serializeTokCh t)) := by
  rcases l with _ | ⟨t0, ts⟩
  · rfl
  · unfold parse_dev_tokens serialize_dev parseDevTokensCh
    have hdata : (⟨joinComma ((t0 :: ts).map serializeTokCh)⟩ : String).data
        = joinComma ((t0 :: ts).map serializeTokCh) := rfl
    rw [hdata]
    have hpieces : ∀ p ∈ (t0 :: ts).map serializeTokCh, ∀ c ∈ p, c ≠ ',' := by
      intro p hp c hc
      obtain ⟨t, ht, rfl⟩ := List.mem_map.mp hp
      exact (serializeTok_chars (hm t ht) c hc).1
    rw [split_join (by simp) hpieces]
    have hstrip : ((t0 :: ts).map serializeTokCh).map pyStripCh
        = (t0 :: ts).map serializeTokCh := by
      rw [List.map_map]
      apply List.map_congr_left
      intro t ht
      exact pyStrip_id (fun c hc => (serializeTok_chars (hm t ht) c hc).2)
    rw [hstrip, List.filterMap_map]
    rfl

/-! Re-matching a single serialized token. -/

theorem reparse_exact {t : DevTok} (hm : monthAlpha t.month_en = true)
    (hne : t.month_en.data ≠ []) (hy1 : 1000 ≤ t.year) (hy2 : t.year ≤ 9999)
    (hp : priceRT t.price) : matchTokenCh (serializeTokCh t) = some t := by
  unfold priceRT at hp
  have hup : ∀ c ∈ t.month_en.data, isUpperCh c = true := by
    unfold monthAlpha at hm
    exact List.all_eq_true.mp hm
  have hser : serializeTokCh t = (formatG t.price).data
      ++ ':' :: (natDigits t.year ++ ';' :: (t.month_en.data ++ kindSuffix t.kind)) := by
    unfold serializeTokCh
    rw [asciiUpper_of_monthAlpha hm]
    simp [List.append_assoc]
  rw [hser]
  unfold matchTokenCh
  rw [parseNum_extend hp (by decide) (by decide) _]
  dsimp only
  rw [if_pos rfl, take4_natDigits hy1 (by omega) _]
  dsimp only
  rw [if_pos rfl]
  have htu : takeUpper (t.month_en.data ++ kindSuffix t.kind)
      = (t.month_en.data, kindSuffix t.kind) := by
    apply takeUpper_app hup
    intro c hc
    cases hk : t.kind
    · rw [hk] at hc
      simp [kindSuffix] at hc
    · rw [hk] at hc
      simp only [kindSuffix, List.head?_cons, Option.some.injEq] at hc
      rw [← hc]
      decide
  rw [htu]
  rcases hmd : t.month_en.data with _ | ⟨m, mo⟩
  · exact absurd hmd hne
  · dsimp only
    have hmap : (m :: mo).map asciiUpperCh = m :: mo :=
      map_asciiUpper_id (fun c hc => hup c (hmd ▸ hc))
    cases hk : t.kind
    · rw [show kindSuffix Kind.REV = [] from rfl, if_pos rfl, hmap]
      rcases t with ⟨p, y, mon, k⟩
      rcases mon with ⟨mond⟩
      dsimp only at hmd hk ⊢
      subst hk
      subst hmd
      rfl
    · rw [show kindSuffix Kind.EX = [';', 'E', 'X'] from rfl,
        if_neg (by decide), if_pos rfl, hmap]
      rcases t with ⟨p, y, mon, k⟩
      rcases mon with ⟨mond⟩
      dsimp only at hmd hk ⊢
      subst hk
      subst hmd
      rfl

theorem reparse_weak {t : DevTok} (hm : monthAlpha t.month_en = true) (hy2 : t.year ≤ 9999) :
    matchTokenCh (serializeTokCh t) = none
    ∨ ∃ p, matchTokenCh (serializeTokCh t) = some ⟨p, t.year, t.month_en, t.kind⟩ := by
  have hup : ∀ c ∈ t.month_en.data, isUpperCh c = true := by
    unfold monthAlpha at hm
    exact List.all_eq_true.mp hm
  have hser : serializeTokCh t = (formatG t.price).data
      ++ ':' :: (natDigits t.year ++ ';' :: (t.month_en.data ++ kindSuffix t.kind)) := by
    unfold serializeTokCh
    rw [asciiUpper_of_monthAlpha hm]
    simp [List.append_assoc]
  have hsfx : ∀ c, (kindSuffix t.kind).head? = some c → isUpperCh c = false := by
    intro c hc
    cases hk : t.kind
    · rw [hk] at hc
      simp [kindSuffix] at hc
    · rw [hk] at hc
      simp only [kindSuffix, List.head?_cons, Option.some.injEq] at hc
      rw [← hc]
      decide
  rcases parseNum_colon_cases (formatG t.price).data
      (natDigits t.year ++ ';' :: (t.month_en.data ++ kindSuffix t.kind))
      (formatG_safe t.price) with hnone | ⟨v, hA⟩ | ⟨v, c2, r2, hC, hc2⟩
  · left
    unfold matchTokenCh
    rw [hser, hnone]
  · by_cases hy1 : 1000 ≤ t.year
    · rcases hmd : t.month_en.data with _ | ⟨m, mo⟩
      · left
        unfold matchTokenCh
        rw [hser, hA]
        dsimp only
        rw [if_pos rfl, take4_natDigits hy1 (by omega) _]
        dsimp only
        rw [if_pos rfl, hmd, @takeUpper_app [] (by simp) (kindSuffix t.kind) hsfx]
      · right
        refine ⟨v, ?_⟩
        unfold matchTokenCh
        rw [hser, hA]
        dsimp only
        rw [if_pos rfl, take4_natDigits hy1 (by omega) _]
        dsimp only
        rw [if_pos rfl]
        have htu : takeUpper (t.month_en.data ++ kindSuffix t.kind)
            = (t.month_en.data, kindSuffix t.kind) := takeUpper_app hup hsfx
        rw [htu, hmd]
        dsimp only
        have hmap : (m :: mo).map asciiUpperCh = m :: mo :=
          map_asciiUpper_id (fun c hc => hup c (hmd ▸ hc))
        cases hk : t.kind
        · rw [show kindSuffix Kind.REV = [] from rfl, if_pos rfl, hmap]
          rcases t with ⟨p, y, mon, k⟩
          rcases mon with ⟨mond⟩
          dsimp only at hmd hk ⊢
          subst hk
          subst hmd
          rfl
        · rw [show kindSuffix Kind.EX = [';', 'E', 'X'] from rfl,
            if_neg (by decide), if_pos rfl, hmap]
          rcases t with ⟨p, y, mon, k⟩
          rcases mon with ⟨mond⟩
          dsimp only at hmd hk ⊢
          subst hk
          subst hmd
          rfl
    · left
      unfold matchTokenCh
      rw [hser, hA]
      dsimp only
      rw [if_pos rfl]
      have hlen : (natDigits t.year).length ≤ 3 := by
        apply natDigits_len_le 3 t.year (by omega)
        have : (10 : ℕ) ^ 3 = 1000 := by norm_num
        omega
      rw [take4_short hlen _]

  · left
    unfold matchTokenCh
    rw [hser, hC]
    dsimp only
    rw [if_neg hc2]

/-! Association-list facts for dedupe_by_key. -/

theorem upsert_keys (acc : List ((ℕ × String) × DevTok)) (e : DevTok) :
    (upsert acc e).map Prod.fst
      = if acc.any (fun p => decide (p.1 = keyOf e)) then acc.map Prod.fst
        else acc.map Prod.fst ++ [keyOf e] := by
  unfold upsert
  by_cases hmem : acc.any (fun p => decide (p.1 = keyOf e)) = true
  · rw [if_pos hmem, if_pos hmem, List.map_map]
    apply List.map_congr_left
    intro p _
    by_cases hpk : p.1 = keyOf e
    · simp [hpk]
    · simp [hpk]
  · rw [if_neg hmem, if_neg hmem, List.map_append]
    rfl

theorem upsert_wf {acc : List ((ℕ × String) × DevTok)}
    (h : ∀ p ∈ acc, p.1 = keyOf p.2) (e : DevTok) :
    ∀ p ∈ upsert acc e, p.1 = keyOf p.2 := by
  intro p hp
  unfold upsert at hp
  by_cases hmem : acc.any (fun p => decide (p.1 = keyOf e)) = true
  · rw [if_pos hmem] at hp
    obtain ⟨q, hq, hqe⟩ := List.mem_map.mp hp
    by_cases hqk : q.1 = keyOf e
    · rw [if_pos hqk] at hqe
      rw [← hqe]
    · rw [if_neg hqk] at hqe
      rw [← hqe]
      exact h q hq
  · rw [if_neg hmem] at hp
    rcases List.mem_append.mp hp with hp | hp
    · exact h p hp
    · rcases List.mem_singleton.mp hp with rfl
      rfl

theorem foldl_upsert_wf (toks : List DevTok) :
    ∀ acc : List ((ℕ × String) × DevTok), (∀ p ∈ acc, p.1 = keyOf p.2) →
      ∀ p ∈ toks.foldl upsert acc, p.1 = keyOf p.2 := by
  induction toks with
  | nil => exact fun acc h => h
  | cons e rest ih =>
    intro acc h
    exact ih (upsert acc e) (upsert_wf h e)

theorem foldl_upsert_keys_nodup (toks : List DevTok) :
    ∀ acc : List ((ℕ × String) × DevTok), (acc.map Prod.fst).Nodup →
      ((toks.foldl upsert acc).map Prod.fst).Nodup := by
  induction toks with
  | nil => exact fun acc h => h
  | cons e rest ih =>
    intro acc h
    apply ih
    rw [upsert_keys]
    by_cases hmem : acc.any (fun p => decide (p.1 = keyOf e)) = true
    · rw [if_pos hmem]
      exact h
    · rw [if_neg hmem]
      rw [List.nodup_append]
      refine ⟨h, List.nodup_singleton _, ?_⟩
      intro k hk hk2
      rcases List.mem_singleton.mp hk2 with rfl
      obtain ⟨p, hp, hpk⟩ := List.mem_map.mp hk
      rw [Bool.not_eq_true] at hmem
      have := List.any_eq_true.not.mp (by rw [hmem]; simp)
      push_neg at this
      exact absurd (by rw [hpk]; exact decide_eq_true rfl : decide (p.1 = keyOf e) = true)
        (by simpa using this p hp)

theorem foldl_upsert_mem (toks : List DevTok) :
    ∀ (acc : List ((ℕ × String) × DevTok)) (p : (ℕ × String) × DevTok),
      p ∈ toks.foldl upsert acc → p.2 ∈ toks ∨ p ∈ acc := by
  induction toks with
  | nil => exact fun acc p hp => Or.inr hp
  | cons e rest ih =>
    intro acc p hp
    rcases ih (upsert acc e) p hp with hmem | hmem
    · exact Or.inl (List.mem_cons_of_mem e hmem)
    · unfold upsert at hmem
      by_cases hany : acc.any (fun p => decide (p.1 = keyOf e)) = true
      · rw [if_pos hany] at hmem
        obtain ⟨q, hq, hqe⟩ := List.mem_map.mp hmem
        by_cases hqk : q.1 = keyOf e
        · rw [if_pos hqk] at hqe
          left
          rw [← hqe]
          exact List.mem_cons_self e rest
        · rw [if_neg hqk] at hqe
          right
          rw [← hqe]
          exact hq
      · rw [if_neg hany] at hmem
        rcases List.mem_append.mp hmem with hmem | hmem
        · exact Or.inr hmem
        · rcases List.mem_singleton.mp hmem with rfl
          exact Or.inl (List.mem_cons_self e rest)

theorem find?_map_replace {k : ℕ × String} (e : DevTok) :
    ∀ A : List ((ℕ × String) × DevTok), A.any (fun p => decide (p.1 = k)) = true →
      (A.map (fun p => if p.1 = k then (k, e) else p)).find? (fun p => decide (p.1 = k))
        = some (k, e) := by
  intro A
  induction A with
  | nil => simp
  | cons p0 A' ih =>
    intro hany
    rw [List.map_cons]
    by_cases hk : p0.1 = k
    · rw [if_pos hk]
      rw [List.find?_cons_of_pos _ (by simp)]
    · rw [if_neg hk]
      rw [List.find?_cons_of_neg _ (by simp [hk])]
      apply ih
      simp only [List.any_cons, Bool.or_eq_true] at hany
      rcases hany with hany | hany
      · exact absurd (of_decide_eq_true hany) hk
      · exact hany

theorem find?_append_right {k : ℕ × String} (e : DevTok) :
    ∀ A : List ((ℕ × String) × DevTok), (∀ p ∈ A, ¬ p.1 = k) →
      (A ++ [(k, e)]).find? (fun p => decide (p.1 = k)) = some (k, e) := by
  intro A
  induction A with
  | nil => simp
  | cons p0 A' ih =>
    intro hall
    rw [List.cons_append, List.find?_cons_of_neg _
      (by simp [hall p0 (List.mem_cons_self p0 A')])]
    exact ih (fun p hp => hall p (List.mem_cons_of_mem p0 hp))

theorem upsert_find_self (A : List ((ℕ × String) × DevTok)) (e : DevTok) :
    (upsert A e).find? (fun p => decide (p.1 = keyOf e)) = some (keyOf e, e) := by
  unfold upsert
  by_cases hany : A.any (fun p => decide (p.1 = keyOf e)) = true
  · rw [if_pos hany]
    exact find?_map_replace e A hany
  · rw [if_neg hany]
    apply find?_append_right
    intro p hp hpk
    rw [Bool.not_eq_true] at hany
    have hfalse : (A.any fun p => decide (p.1 = keyOf e)) = true := by
      rw [List.any_eq_true]
      exact ⟨p, hp, decide_eq_true hpk⟩
    rw [hany] at hfalse
    exact absurd hfalse (by simp)

theorem upsert_find_other {k : ℕ × String} {e : DevTok} (hne : k ≠ keyOf e)
    (A : List ((ℕ × String) × DevTok)) :
    (upsert A e).find? (fun p => decide (p.1 = k)) = A.find? (fun p => decide (p.1 = k)) := by
  unfold upsert
  by_cases hany : A.any (fun p => decide (p.1 = keyOf e)) = true
  · rw [if_pos hany]
    induction A with
    | nil => simp
    | cons p0 A' ih =>
      rw [List.map_cons]
      by_cases hpk : p0.1 = k
      · rw [if_neg (by rw [hpk]; exact hne)]
        rw [List.find?_cons_of_pos _ (by simp [hpk]),
          List.find?_cons_of_pos _ (by simp [hpk])]
      · by_cases hpe : p0.1 = keyOf e
        · rw [if_pos hpe]
          rw [List.find?_cons_of_neg _ (by simp [Ne.symm hne]),
            List.find?_cons_of_neg _ (by simp [hpk])]
          by_cases hany' : A'.any (fun p => decide (p.1 = keyOf e)) = true
          · exact ih hany'
          · have hmap : A'.map (fun p => if p.1 = keyOf e then (keyOf e, e) else p)
                = A'.map id := by
              apply List.map_congr_left
              intro q hq
              rw [if_neg, id_eq]
              intro hqk
              rw [Bool.not_eq_true] at hany'
              have : (A'.any fun p => decide (p.1 = keyOf e)) = true := by
                rw [List.any_eq_true]
                exact ⟨q, hq, decide_eq_true hqk⟩
              rw [hany'] at this
              exact absurd this (by simp)
            rw [hmap, List.map_id]
        · rw [if_neg hpe]
          rw [List.find?_cons_of_neg _ (by simp [hpk]),
            List.find?_cons_of_neg _ (by simp [hpk])]
          by_cases hany' : A'.any (fun p => decide (p.1 = keyOf e)) = true
          · exact ih hany'
          · simp only [List.any_cons, Bool.or_eq_true] at hany
            rcases hany with hb | hb
            · exact absurd (of_decide_eq_true hb) hpe
            · exact absurd hb (by rw [Bool.not_eq_true] at hany' ⊢; exact hany')
  · rw [if_neg hany]
    rw [List.find?_append]
    have hnone : List.find? (fun p => decide (p.1 = k)) [(keyOf e, e)] = none := by
      rw [List.find?_cons_of_neg _ (by simp [Ne.symm hne])]
      rfl
    rw [hnone]
    cases A.find? (fun p => decide (p.1 = k)) <;> rfl

theorem foldl_upsert_find (toks : List DevTok) (k : ℕ × String) :
    ∀ acc : List ((ℕ × String) × DevTok),
      (toks.foldl upsert acc).find? (fun p => decide (p.1 = k))
        = match (toks.filter (fun e => decide (keyOf e = k))).getLast? with
          | some e => some (k, e)
          | none => acc.find? (fun p => decide (p.1 = k)) := by
  induction toks using List.reverseRecOn with
  | nil => simp
  | append_singleton rest e ih =>
    intro acc
    rw [List.foldl_append, List.foldl_cons, List.foldl_nil, List.filter_append]
    by_cases hke : keyOf e = k
    · rw [show List.filter (fun e => decide (keyOf e = k)) [e] = [e] by
        simp [List.filter, hke]]
      rw [List.getLast?_concat]
      rw [← hke]
      exact upsert_find_self _ e
    · rw [show List.filter (fun e => decide (keyOf e = k)) [e] = [] by
        simp [List.filter, hke]]
      rw [List.append_nil, upsert_find_other (fun h => hke h.symm) _, ih acc]

theorem find?_values {k : ℕ × String} :
    ∀ A : List ((ℕ × String) × DevTok), (∀ p ∈ A, p.1 = keyOf p.2) →
      (A.map Prod.snd).find? (fun e => decide (keyOf e = k))
        = (A.find? (fun p => decide (p.1 = k))).map Prod.snd := by
  intro A
  induction A with
  | nil => simp
  | cons p0 A' ih =>
    intro hwf
    rw [List.map_cons]
    have hp0 := hwf p0 (List.mem_cons_self p0 A')
    by_cases hk : keyOf p0.2 = k
    · rw [List.find?_cons_of_pos _ (by simp [hk]),
        List.find?_cons_of_pos _ (by simp [hp0, hk])]
      rfl
    · rw [List.find?_cons_of_neg _ (by simp [hk]),
        List.find?_cons_of_neg _ (by simp [hp0, hk])]
      exact ih (fun p hp => hwf p (List.mem_cons_of_mem p0 hp))

/-! The dedupe_by_key characterisation: distinct keys, last write wins,
membership preservation. -/

theorem dedupe_find (toks : List DevTok) (k : ℕ × String) :
    (dedupe_by_key toks).find? (fun e => decide (keyOf e = k))
      = (toks.filter (fun e => decide (keyOf e = k))).getLast? := by
  unfold dedupe_by_key
  rw [show (fun p : (ℕ × String) × DevTok => p.2) = Prod.snd from rfl]
  rw [find?_values _ (foldl_upsert_wf toks [] (by simp))]
  rw [foldl_upsert_find toks k []]
  rcases (toks.filter (fun e => decide (keyOf e = k))).getLast? with _ | e
  · simp
  · simp

theorem dedupe_keys_nodup (toks : List DevTok) :
    ((dedupe_by_key toks).map keyOf).Nodup := by
  unfold dedupe_by_key
  rw [List.map_map]
  have hwf := foldl_upsert_wf toks [] (by simp)
  have hmap : (toks.foldl upsert []).map (keyOf ∘ fun p => p.2)
      = (toks.foldl upsert []).map Prod.fst := by
    apply List.map_congr_left
    intro p hp
    exact (hwf p hp).symm
  rw [hmap]
  exact foldl_upsert_keys_nodup toks [] (by simp)

theorem dedupe_subset {toks : List DevTok} {t : DevTok} (h : t ∈ dedupe_by_key toks) :
    t ∈ toks := by
  unfold dedupe_by_key at h
  obtain ⟨p, hp, hpe⟩ := List.mem_map.mp h
  rcases foldl_upsert_mem toks [] p hp with hmem | hmem
  · rw [← hpe]
    exact hmem
  · simp at hmem

theorem foldl_upsert_fresh (toks : List DevTok) :
    ∀ acc : List ((ℕ × String) × DevTok), (toks.map keyOf).Nodup →
      (∀ e ∈ toks, ∀ p ∈ acc, p.1 ≠ keyOf e) →
      toks.foldl upsert acc = acc ++ toks.map (fun e => (keyOf e, e)) := by
  induction toks with
  | nil => simp
  | cons e rest ih =>
    intro acc hnodup hdisj
    rw [List.foldl_cons]
    have hany : acc.any (fun p => decide (p.1 = keyOf e)) = false := by
      rw [Bool.eq_false_iff]
      intro hany
      obtain ⟨p, hp, hpk⟩ := List.any_eq_true.mp hany
      exact absurd (of_decide_eq_true hpk) (hdisj e (List.mem_cons_self e rest) p hp)
    have hupsert : upsert acc e = acc ++ [(keyOf e, e)] := by
      unfold upsert
      rw [hany]
      simp
    rw [hupsert]
    have hnodup' := hnodup
    rw [List.map_cons, List.nodup_cons] at hnodup'
    have hdisj' : ∀ e2 ∈ rest, ∀ p ∈ acc ++ [(keyOf e, e)], p.1 ≠ keyOf e2 := by
      intro e2 he2 p hp
      rcases List.mem_append.mp hp with hp | hp
      · exact hdisj e2 (List.mem_cons_of_mem e he2) p hp
      · rcases List.mem_singleton.mp hp with rfl
        dsimp only
        intro heq
        exact hnodup'.1 (List.mem_map.mpr ⟨e2, he2, heq.symm⟩)
    rw [ih (acc ++ [(keyOf e, e)]) hnodup'.2 hdisj']
    simp

theorem dedupe_nodup_id {toks : List DevTok} (h : (toks.map keyOf).Nodup) :
    dedupe_by_key toks = toks := by
  unfold dedupe_by_key
  rw [foldl_upsert_fresh toks [] h (by simp), List.nil_append, List.map_map]
  rw [show ((fun p : (ℕ × String) × DevTok => p.2) ∘ fun e => (keyOf e, e)) = id from rfl,
    List.map_id]

theorem dedupe_all_same_key {toks : List DevTok} {k : ℕ × String}
    (h : ∀ e ∈ toks, keyOf e = k) : (dedupe_by_key toks).length ≤ 1 := by
  have hnodup := dedupe_keys_nodup toks
  have hall : ∀ x ∈ (dedupe_by_key toks).map keyOf, x = k := by
    intro x hx
    obtain ⟨e, he, hek⟩ := List.mem_map.mp hx
    rw [← hek]
    exact h e (dedupe_subset he)
  rcases hd : (dedupe_by_key toks).map keyOf with _ | ⟨x, _ | ⟨y, rest⟩⟩
  · have := congrArg List.length hd
    simp only [List.length_map, List.length_nil] at this
    omega
  · have := congrArg List.length hd
    simp only [List.length_map, List.length_cons, List.length_nil] at this
    omega
  · exfalso
    rw [hd] at hnodup hall
    have hx := hall x (by simp)
    have hy := hall y (by simp)
    rw [List.nodup_cons] at hnodup
    exact absurd (by rw [hx, hy] : x = y) (fun hxy => hnodup.1 (hxy ▸ by simp))

/-! Parsing a cell ignores outer whitespace: the per-segment strip absorbs
whatever an outer strip would have removed, so parse_dev_tokens commutes
with stripping the whole cell. -/

theorem dropWhile_all_true {p : Char → Bool} {l : List Char}
    (h : ∀ c ∈ l, p c = true) : l.dropWhile p = [] := by
  induction l with
  | nil => rfl
  | cons c cs ih =>
    rw [List.dropWhile_cons, if_pos (h c (List.mem_cons_self c cs))]
    exact ih (fun d hd => h d (List.mem_cons_of_mem c hd))

theorem dropWhile_absorb {p : Char → Bool} {ws : List Char}
    (h : ∀ c ∈ ws, p c = true) (x : List Char) :
    (ws ++ x).dropWhile p = x.dropWhile p := by
  induction ws with
  | nil => rfl
  | cons w wsx ih =>
    rw [List.cons_append, List.dropWhile_cons, if_pos (h w (List.mem_cons_self w wsx))]
    exact ih (fun c hc => h c (List.mem_cons_of_mem w hc))

theorem pyStrip_ws_left {ws : List Char} (h : ∀ c ∈ ws, isSpaceCh c = true)
    (x : List Char) : pyStripCh (ws ++ x) = pyStripCh x := by
  unfold pyStripCh
  rw [dropWhile_absorb h x]

theorem pyStrip_ws_right {ws : List Char} (h : ∀ c ∈ ws, isSpaceCh c = true)
    (x : List Char) : pyStripCh (x ++ ws) = pyStripCh x := by
  unfold pyStripCh
  rcases hx : x.dropWhile isSpaceCh with _ | ⟨d, ds⟩
  · rw [List.dropWhile_append, hx]
    simp only [List.isEmpty_nil, if_pos]
    rw [dropWhile_all_true h]
  · rw [List.dropWhile_append, hx]
    simp only [List.isEmpty_cons, if_neg (by simp : ¬false = true)]
    rw [List.reverse_append, dropWhile_absorb (fun c hc => h c (List.mem_reverse.mp hc))]

theorem space_ne_comma {c : Char} (h : isSpaceCh c = true) : c ≠ ',' := by
  simp only [isSpaceCh, Bool.or_eq_true, decide_eq_true_eq] at h
  rcases h with ((((he | he) | he) | he) | he) | he <;> (subst he; decide)

theorem strip_decomposition (cs : List Char) :
    ∃ ws1 ws2, (∀ c ∈ ws1, isSpaceCh c = true) ∧ (∀ c ∈ ws2, isSpaceCh c = true)
      ∧ cs = ws1 ++ (pyStripCh cs ++ ws2) := by
  refine ⟨cs.takeWhile isSpaceCh,
    ((cs.dropWhile isSpaceCh).reverse.takeWhile isSpaceCh).reverse, ?_, ?_, ?_⟩
  · intro c hc
    exact List.mem_takeWhile_imp hc
  · intro c hc
    exact List.mem_takeWhile_imp (List.mem_reverse.mp hc)
  · unfold pyStripCh
    have h1 : cs = cs.takeWhile isSpaceCh ++ cs.dropWhile isSpaceCh :=
      (List.takeWhile_append_dropWhile _ _).symm
    have h2 : (cs.dropWhile isSpaceCh).reverse
        = (cs.dropWhile isSpaceCh).reverse.takeWhile isSpaceCh
          ++ (cs.dropWhile isSpaceCh).reverse.dropWhile isSpaceCh :=
      (List.takeWhile_append_dropWhile _ _).symm
    have h3 : cs.dropWhile isSpaceCh
        = ((cs.dropWhile isSpaceCh).reverse.dropWhile isSpaceCh).reverse
          ++ ((cs.dropWhile isSpaceCh).reverse.takeWhile isSpaceCh).reverse := by
      have := congrArg List.reverse h2
      rw [List.reverse_reverse, List.reverse_append] at this
      exact this
    calc cs = cs.takeWhile isSpaceCh ++ cs.dropWhile isSpaceCh := h1
    _ = cs.takeWhile isSpaceCh
        ++ (((cs.dropWhile isSpaceCh).reverse.dropWhile isSpaceCh).reverse
          ++ ((cs.dropWhile isSpaceCh).reverse.takeWhile isSpaceCh).reverse) := by rw [← h3]

theorem splitComma_ws_prefix {ws : List Char} (hws : ∀ c ∈ ws, c ≠ ',') (cs : List Char) :
    ∃ h tl, splitCommaCh cs = h :: tl ∧ splitCommaCh (ws ++ cs) = (ws ++ h) :: tl := by
  induction ws with
  | nil =>
    rcases hsp : splitCommaCh cs with _ | ⟨h, tl⟩
    · exact absurd hsp (splitCommaCh_ne_nil cs)
    · exact ⟨h, tl, rfl, by rw [List.nil_append, hsp, List.nil_append]⟩
  | cons w wsx ih =>
    obtain ⟨h, tl, h1, h2⟩ := ih (fun c hc => hws c (List.mem_cons_of_mem w hc))
    refine ⟨h, tl, h1, ?_⟩
    rw [List.cons_append]
    simp only [splitCommaCh, h2]
    rw [if_neg (hws w (List.mem_cons_self w wsx))]
    rfl

theorem splitComma_ws_suffix {ws : List Char} (hws : ∀ c ∈ ws, c ≠ ',') (cs : List Char) :
    ∃ ini lst, splitCommaCh cs = ini ++ [lst]
      ∧ splitCommaCh (cs ++ ws) = ini ++ [lst ++ ws] := by
  induction cs with
  | nil =>
    refine ⟨[], [], rfl, ?_⟩
    rw [List.nil_append, List.nil_append]
    exact splitComma_no_comma hws
  | cons c cs ih =>
    obtain ⟨ini, lst, h1, h2⟩ := ih
    rcases ini with _ | ⟨i0, ir⟩
    · rw [List.nil_append] at h1 h2
      by_cases hc : c = ','
      · refine ⟨[[]], lst, ?_, ?_⟩
        · simp only [splitCommaCh, h1]
          rw [if_pos hc]
          rfl
        · rw [List.cons_append]
          simp only [splitCommaCh, h2]
          rw [if_pos hc]
          rfl
      · refine ⟨[], c :: lst, ?_, ?_⟩
        · simp only [splitCommaCh, h1]
          rw [if_neg hc]
          rfl
        · rw [List.cons_append]
          simp only [splitCommaCh, h2]
          rw [if_neg hc]
          rfl
    · by_cases hc : c = ','
      · refine ⟨[] :: i0 :: ir, lst, ?_, ?_⟩
        · simp only [splitCommaCh, h1, List.cons_append]
          rw [if_pos hc]
        · rw [List.cons_append]
          simp only [splitCommaCh, h2, List.cons_append]
          rw [if_pos hc]
      · refine ⟨(c :: i0) :: ir, lst, ?_, ?_⟩
        · simp only [splitCommaCh, h1, List.cons_append]
          rw [if_neg hc]
        · rw [List.cons_append]
          simp only [splitCommaCh, h2, List.cons_append]
          rw [if_neg hc]

theorem parse_pyStrip (cs : List Char) :
    parseDevTokensCh (pyStripCh cs) = parseDevTokensCh cs := by
  obtain ⟨ws1, ws2, hw1, hw2, hdec⟩ := strip_decomposition cs
  have hw1c : ∀ c ∈ ws1, c ≠ ',' := fun c hc => space_ne_comma (hw1 c hc)
  have hw2c : ∀ c ∈ ws2, c ≠ ',' := fun c hc => space_ne_comma (hw2 c hc)
  obtain ⟨ini, lst, hsp1, hsp2⟩ := splitComma_ws_suffix hw2c (pyStripCh cs)
  obtain ⟨h0, tl0, hsp3, hsp4⟩ := splitComma_ws_prefix hw1c (pyStripCh cs ++ ws2)
  rw [hsp2] at hsp3
  unfold parseDevTokensCh
  conv_rhs => rw [hdec]
  rw [hsp4, hsp1]
  rcases ini with _ | ⟨i0, ir⟩
  · rw [List.nil_append] at hsp3
    injection hsp3 with he1 he2
    subst he1
    subst he2
    simp only [List.nil_append, List.map_cons, List.map_nil, List.filterMap_cons,
      List.filterMap_nil]
    rw [pyStrip_ws_left hw1, pyStrip_ws_right hw2]
  · rw [List.cons_append] at hsp3
    injection hsp3 with he1 he2
    subst he1
    subst he2
    simp only [List.cons_append, List.map_cons, List.map_append, List.map_nil,
      List.filterMap_cons, List.filterMap_append, List.filterMap_nil]
    rw [pyStrip_ws_left hw1, pyStrip_ws_right hw2]

/-! The parse-of-serialize pipeline. -/

theorem filterMap_keys_sub {l : List DevTok} {f : DevTok → Option DevTok}
    (hf : ∀ t ∈ l, f t = none ∨ ∃ u, f t = some u ∧ keyOf u = keyOf t) :
    ∀ u ∈ l.filterMap f, keyOf u ∈ l.map keyOf := by
  intro u hu
  obtain ⟨t, ht, hft⟩ := List.mem_filterMap.mp hu
  rcases hf t ht with hnone | ⟨w, hw, hkw⟩
  · rw [hnone] at hft
    cases hft
  · rw [hw] at hft
    injection hft with he
    subst he
    rw [hkw]
    exact List.mem_map.mpr ⟨t, ht, rfl⟩

theorem filterMap_keys_nodup {l : List DevTok} {f : DevTok → Option DevTok}
    (hf : ∀ t ∈ l, f t = none ∨ ∃ u, f t = some u ∧ keyOf u = keyOf t)
    (hnd : (l.map keyOf).Nodup) : ((l.filterMap f).map keyOf).Nodup := by
  induction l with
  | nil => simp
  | cons t ts ih =>
    rw [List.map_cons, List.nodup_cons] at hnd
    have hrest := ih (fun x hx => hf x (List.mem_cons_of_mem t hx)) hnd.2
    rcases hf t (List.mem_cons_self t ts) with hnone | ⟨u, hu, hku⟩
    · rw [List.filterMap_cons_none hnone]
      exact hrest
    · rw [List.filterMap_cons_some hu, List.map_cons, List.nodup_cons]
      refine ⟨?_, hrest⟩
      intro hmem
      obtain ⟨w, hw, hkw⟩ := List.mem_map.mp hmem
      have hsub := filterMap_keys_sub (fun x hx => hf x (List.mem_cons_of_mem t hx)) w hw
      rw [hkw, hku] at hsub
      exact hnd.1 hsub

theorem parse_serialize_mem {l : List DevTok} (hm : ∀ t ∈ l, monthAlpha t.month_en = true)
    (hy : ∀ t ∈ l, t.year ≤ 9999) :
    ∀ u ∈ parse_dev_tokens (serialize_dev l), ∃ t ∈ l,
      u.year = t.year ∧ u.month_en = t.month_en ∧ u.kind = t.kind := by
  rw [parse_serialize hm]
  intro u hu
  obtain ⟨t, ht, hmt⟩ := List.mem_filterMap.mp hu
  rcases reparse_weak (hm t ht) (hy t ht) with hnone | ⟨p, hsome⟩
  · rw [hnone] at hmt
    cases hmt
  · rw [hsome] at hmt
    injection hmt with he
    subst he
    exact ⟨t, ht, rfl, rfl, rfl⟩

theorem parse_serialize_keys_nodup {l : List DevTok}
    (hm : ∀ t ∈ l, monthAlpha t.month_en = true) (hy : ∀ t ∈ l, t.year ≤ 9999)
    (hnd : (l.map keyOf).Nodup) :
    ((parse_dev_tokens (serialize_dev l)).map keyOf).Nodup := by
  rw [parse_serialize hm]
  apply filterMap_keys_nodup ?hf hnd
  case hf =>
    intro t ht
    rcases reparse_weak (hm t ht) (hy t ht) with hnone | ⟨p, hsome⟩
    · exact Or.inl hnone
    · exact Or.inr ⟨⟨p, t.year, t.month_en, t.kind⟩, hsome, rfl⟩

/-! Key distinctness is (re-)established by one booking-form update. -/

theorem applyFormValue_distinct {y : ℕ} {m_en : String} (hm : monthAlpha m_en = true)
    (hy : y ≤ 9999) (s v : String) (hs : distinctKeys (parse_dev_tokens s)) :
    distinctKeys (parse_dev_tokens (applyFormValue y m_en s v)) := by
  unfold applyFormValue
  by_cases hblank : pyStripCh v.data = []
  · rw [if_pos hblank]
    exact hs
  · rw [if_neg hblank]
    rcases hsearch : searchNumberCh (pyStripCh v.data) with _ | num
    · exact hs
    · unfold distinctKeys
      apply parse_serialize_keys_nodup
      · intro t ht
        rcases List.mem_append.mp (dedupe_subset ht) with hmem | hmem
        · exact (parse_tokens_props (List.mem_of_mem_filter hmem)).1
        · rcases List.mem_singleton.mp hmem with rfl
          exact hm
      · intro t ht
        rcases List.mem_append.mp (dedupe_subset ht) with hmem | hmem
        · exact (parse_tokens_props (List.mem_of_mem_filter hmem)).2.2
        · rcases List.mem_singleton.mp hmem with rfl
          exact hy
      · exact dedupe_keys_nodup _

/-! Phase 1 of the save binds every surviving token to the saved year and
the column month. -/

theorem phase1Parse_props {Y : ℕ} {m_en : String} (hm : monthAlpha m_en = true)
    (hy2 : Y ≤ 9999) (raw : List Char) :
    ∀ t ∈ parse_dev_tokens (phase1Parse Y m_en raw),
      t.year = Y ∧ asciiUpper t.month_en = m_en := by
  intro t ht
  unfold phase1Parse at ht
  have hmonths : ∀ u ∈ dedupe_by_key ((parseDevTokensCh raw).filter
      (fun e => decide (e.year = Y) && decide (asciiUpper e.month_en = m_en))),
      monthAlpha u.month_en = true := by
    intro u hu
    exact (parse_tokens_props (List.mem_of_mem_filter (dedupe_subset hu))).1
  have hyears : ∀ u ∈ dedupe_by_key ((parseDevTokensCh raw).filter
      (fun e => decide (e.year = Y) && decide (asciiUpper e.month_en = m_en))),
      u.year ≤ 9999 := by
    intro u hu
    exact (parse_tokens_props (List.mem_of_mem_filter (dedupe_subset hu))).2.2
  obtain ⟨u, hu, hyear, hmonth, _⟩ := parse_serialize_mem hmonths hyears t ht
  have hcond := List.of_mem_filter (dedupe_subset hu)
  simp only [Bool.and_eq_true, decide_eq_true_eq] at hcond
  exact ⟨by rw [hyear, hcond.1], by rw [hmonth, hcond.2]⟩

theorem serialize_singleton (t : DevTok) : serialize_dev [t] = ⟨serializeTokCh t⟩ := rfl

theorem phase1Cell_props {Y : ℕ} {m_en : String} (hm : monthAlpha m_en = true)
    (hy1 : 1000 ≤ Y) (hy2 : Y ≤ 9999) (cell : String) :
    ∀ t ∈ parse_dev_tokens (phase1Cell Y m_en cell),
      t.year = Y ∧ asciiUpper t.month_en = m_en := by
  intro t ht
  unfold phase1Cell at ht
  by_cases hblank : pyStripCh cell.data = []
  · rw [if_pos hblank] at ht
    simp [parse_dev_tokens, parseDevTokensCh, splitCommaCh, pyStripCh, matchTokenCh,
      parseNum, takeDigits] at ht
  · rw [if_neg hblank] at ht
    rcases hsearch : searchNumberCh (pyStripCh cell.data) with _ | num <;> rw [hsearch] at ht
    · dsimp only at ht
      exact phase1Parse_props hm hy2 _ t ht
    · dsimp only at ht
      by_cases hbare : pyStripCh cell.data = num
      · rw [if_pos hbare] at ht
        have heq : (⟨(formatG (numeralValue num)).data ++ ':' :: natDigits Y
            ++ ';' :: m_en.data⟩ : String)
            = serialize_dev [⟨numeralValue num, Y, m_en, Kind.REV⟩] := by
          rw [serialize_singleton]
          unfold serializeTokCh
          rw [asciiUpper_of_monthAlpha hm]
          simp [kindSuffix]
        rw [heq] at ht
        obtain ⟨u, hu, hyear, hmonth, _⟩ := parse_serialize_mem
          (by intro u hu; rcases List.mem_singleton.mp hu with rfl; exact hm)
          (by intro u hu; rcases List.mem_singleton.mp hu with rfl; exact hy2) t ht
        rcases List.mem_singleton.mp hu with rfl
        dsimp only at hyear hmonth
        refine ⟨hyear, ?_⟩
        rw [hmonth]
        exact asciiUpper_of_monthAlpha hm
      · rw [if_neg hbare] at ht
        exact phase1Parse_props hm hy2 _ t ht

theorem phase1Cell_excluded {Y : ℕ} {m_en : String} (cell : String)
    (hno : ∀ t ∈ parse_dev_tokens cell, ¬ (t.year = Y ∧ asciiUpper t.month_en = m_en))
    (hnotbare : searchNumberCh (pyStripCh cell.data) ≠ some (pyStripCh cell.data)) :
    phase1Cell Y m_en cell = ⟨[]⟩ := by
  unfold phase1Cell
  have hempty : phase1Parse Y m_en (pyStripCh cell.data) = ⟨[]⟩ := by
    unfold phase1Parse
    have hfilter : (parseDevTokensCh (pyStripCh cell.data)).filter
        (fun e => decide (e.year = Y) && decide (asciiUpper e.month_en = m_en)) = [] := by
      rw [List.filter_eq_nil_iff]
      intro e he
      have hmem : e ∈ parse_dev_tokens cell := by
        unfold parse_dev_tokens
        rw [← parse_pyStrip]
        exact he
      have := hno e hmem
      simp only [Bool.and_eq_true, decide_eq_true_eq]
      intro hc
      exact this hc
    rw [hfilter]
    rfl
  by_cases hblank : pyStripCh cell.data = []
  · rw [if_pos hblank]
  · rw [if_neg hblank]
    rcases hsearch : searchNumberCh (pyStripCh cell.data) with _ | num
    · dsimp only
      exact hempty
    · dsimp only
      have hbare : ¬ (pyStripCh cell.data = num) := by
        intro hb
        rw [← hb] at hsearch
        exact hnotbare hsearch
      rw [if_neg hbare]
      exact hempty

/-! Remaining helper lemmas. -/

theorem filterMap_some_id {α : Type} {l : List α} {f : α → Option α}
    (h : ∀ a ∈ l, f a = some a) : l.filterMap f = l := by
  induction l with
  | nil => rfl
  | cons a as ih =>
    rw [List.filterMap_cons_some (h a (List.mem_cons_self a as)),
      ih (fun x hx => h x (List.mem_cons_of_mem a hx))]

theorem month_values_ok : ∀ m ∈ MONTH_EN_VALUES, monthAlpha m = true ∧ m.data ≠ [] := by
  decide

theorem months_mapped : ∀ m ∈ MONTHS, monthEnOf m ∈ MONTH_EN_VALUES := by decide

theorem searchNumber_digits {ds : List Char} (hne : ds ≠ [])
    (hd : ∀ c ∈ ds, isDigitCh c = true) : searchNumberCh ds = some ds := by
  rcases ds with _ | ⟨d0, ds'⟩
  · exact absurd rfl hne
  · unfold searchNumberCh
    rw [if_pos (hd d0 (List.mem_cons_self _ _))]
    unfold numeralAt
    rw [takeDigits_all_digits hd]

theorem searchNumber_frac {ds fs : List Char} (hdne : ds ≠ []) (hfne : fs ≠ [])
    (hd : ∀ c ∈ ds, isDigitCh c = true) (hf : ∀ c ∈ fs, isDigitCh c = true) :
    searchNumberCh (ds ++ '.' :: fs) = some (ds ++ '.' :: fs) := by
  rcases ds with _ | ⟨d0, ds'⟩
  · exact absurd rfl hdne
  · rw [List.cons_append]
    unfold searchNumberCh
    rw [if_pos (hd d0 (List.mem_cons_self _ _))]
    unfold numeralAt
    rw [← List.cons_append, takeDigits_app hd (by decide) fs]
    dsimp only
    rw [if_pos rfl]
    rcases fs with _ | ⟨f0, fs'⟩
    · exact absurd rfl hfne
    · rw [takeDigits_all_digits hf]

theorem numeralAt_shape {c : Char} (hc : isDigitCh c = true) (cs' : List Char) :
    (∃ ds, numeralAt (c :: cs') = ds ∧ ds ≠ [] ∧ (∀ x ∈ ds, isDigitCh x = true))
    ∨ (∃ ds fs, numeralAt (c :: cs') = ds ++ '.' :: fs ∧ ds ≠ [] ∧ fs ≠ []
        ∧ (∀ x ∈ ds, isDigitCh x = true) ∧ (∀ x ∈ fs, isDigitCh x = true)) := by
  obtain ⟨hsp, hdig, hhead⟩ := takeDigits_spec (c :: cs')
  rcases htd : takeDigits (c :: cs') with ⟨fd, fr⟩
  rw [htd] at hsp hdig hhead
  dsimp only at hsp hdig hhead
  have hfdne : fd ≠ [] := by
    intro hfd
    rw [hfd, List.nil_append] at hsp
    have h2 := hhead c (by rw [hsp]; rfl)
    rw [hc] at h2
    exact absurd h2 (by simp)
  unfold numeralAt
  rw [htd]
  rcases fr with _ | ⟨r0, r2⟩
  · exact Or.inl ⟨fd, rfl, hfdne, hdig⟩
  · dsimp only
    by_cases hr0 : r0 = '.'
    · rw [if_pos hr0]
      rcases htd2 : takeDigits r2 with ⟨fd2, fr2⟩
      obtain ⟨hsp2, hdig2, _⟩ := takeDigits_spec r2
      rw [htd2] at hsp2 hdig2
      dsimp only at hsp2 hdig2
      rcases fd2 with _ | ⟨f0, fs⟩
      · exact Or.inl ⟨fd, rfl, hfdne, hdig⟩
      · subst hr0
        exact Or.inr ⟨fd, f0 :: fs, rfl, hfdne, by simp, hdig, hdig2⟩
    · rw [if_neg hr0]
      exact Or.inl ⟨fd, rfl, hfdne, hdig⟩

theorem searchNumber_shape : ∀ {cs ns : List Char}, searchNumberCh cs = some ns →
    ns ≠ [] ∧ (∀ c ∈ ns, isDigitCh c = true ∨ c = '.')
      ∧ searchNumberCh ns = some ns ∧ pyStripCh ns = ns := by
  intro cs
  induction cs with
  | nil =>
    intro ns h
    simp [searchNumberCh] at h
  | cons c cs' ih =>
    intro ns h
    unfold searchNumberCh at h
    by_cases hc : isDigitCh c = true
    · rw [if_pos hc] at h
      injection h with he
      rcases numeralAt_shape hc cs' with ⟨ds, hds, hne, hd⟩
        | ⟨ds, fs, hds, hdne, hfne, hd, hf⟩
      · rw [hds] at he
        subst he
        exact ⟨hne, fun x hx => Or.inl (hd x hx), searchNumber_digits hne hd,
          pyStrip_id (fun x hx => digit_not_space (hd x hx))⟩
      · rw [hds] at he
        subst he
        refine ⟨by simp [hdne], ?_, searchNumber_frac hdne hfne hd hf, ?_⟩
        · intro x hx
          rcases List.mem_append.mp hx with hx | hx
          · exact Or.inl (hd x hx)
          · rcases List.mem_cons.mp hx with rfl | hx
            · exact Or.inr rfl
            · exact Or.inl (hf x hx)
        · apply pyStrip_id
          intro x hx
          rcases List.mem_append.mp hx with hx | hx
          · exact digit_not_space (hd x hx)
          · rcases List.mem_cons.mp hx with rfl | hx
            · decide
            · exact digit_not_space (hf x hx)
    · rw [if_neg hc] at h
      exact ih h

/-! Claim C1. -/

/-- Claim C1: after any sequence of booking-form reconciliations (each one
decoding the cell, removing the tokens of the entry key, appending the new
token, deduplicating by key and re-encoding), the resulting cell text
holds no two tokens sharing a (year, month) key, hence none sharing a
(year, month, kind) key.  The months of the updates are the canonical
month codes and the years have at most four digits, as in the booking
form; the starting cell already satisfies the invariant (the empty cell
does). -/
theorem C1_key_uniqueness (ops : List (ℕ × String × String)) (s : String)
    (hops : ∀ op ∈ ops, op.2.1 ∈ MONTH_EN_VALUES ∧ op.1 ≤ 9999)
    (hs : distinctKeys (parse_dev_tokens s)) :
    distinctKeys (parse_dev_tokens (applyOps ops s)) := by
  induction ops generalizing s with
  | nil => exact hs
  | cons op rest ih =>
    unfold applyOps
    rw [List.foldl_cons]
    have hop := hops op (List.mem_cons_self op rest)
    exact ih _ (fun o ho => hops o (List.mem_cons_of_mem op ho))
      (applyFormValue_distinct (month_values_ok _ hop.1).1 hop.2 s op.2.2 hs)

/-- Witness for C1 at the specification's own example: updating the cell
holding one token for (2024, APRIL) with the price 150 keeps the keys
distinct. -/
theorem C1_witness :
    distinctKeys (parse_dev_tokens
      (applyOps [(2024, ("APRIL" : String), ("150" : String))] ("100:2024;APRIL"))) :=
  C1_key_uniqueness [(2024, ("APRIL" : String), ("150" : String))] ("100:2024;APRIL")
    (by decide) (by decide)

/-! Claim C2. -/

/-- Counterexample to claim C2 as stated: the token list holding the single
record (REV, 2024, APRIL, 1234567) has pairwise distinct keys, a 4-digit
year, a canonical month and a non-negative decimal price, yet CPython
percent-g formatting renders the price in scientific notation, the encoded
cell does not re-parse, and the decoded set is empty rather than the
original record set. -/
theorem C2_counterexample :
    serialize_dev [⟨1234567, 2024, ("APRIL" : String), Kind.REV⟩]
      = ("1.23457e+06:2024;APRIL")
    ∧ parse_dev_tokens (serialize_dev [⟨1234567, 2024, ("APRIL" : String), Kind.REV⟩])
      = [] := by
  constructor
  · decide
  · decide

/-- Claim C2 as amended: the round trip holds for token lists with pairwise
distinct (year, month, kind) keys, canonical months and 4-digit years whose
prices additionally survive percent-g float formatting (priceRT), the
condition the original claim missed; the decoded list is then equal to the
original even as a list. -/
theorem C2_roundtrip {toks : List DevTok}
    (hkeys : (toks.map (fun t => (t.year, t.month_en, t.kind))).Nodup)
    (hmonth : ∀ t ∈ toks, t.month_en ∈ MONTH_EN_VALUES)
    (hyear : ∀ t ∈ toks, 1000 ≤ t.year ∧ t.year ≤ 9999)
    (hprice : ∀ t ∈ toks, priceRT t.price) :
    parse_dev_tokens (serialize_dev toks) = toks := by
  have hma : ∀ t ∈ toks, monthAlpha t.month_en = true :=
    fun t ht => (month_values_ok _ (hmonth t ht)).1
  rw [parse_serialize hma]
  exact filterMap_some_id (fun t ht => reparse_exact (hma t ht)
    ((month_values_ok _ (hmonth t ht)).2) (hyear t ht).1 (hyear t ht).2 (hprice t ht))

/-- Witness for C2 at the specification's own example: one revenue and one
expense record for (2024, APRIL) encode to the two-token cell and decode
back to themselves. -/
theorem C2_witness :
    parse_dev_tokens (serialize_dev
      [⟨100, 2024, ("APRIL" : String), Kind.REV⟩, ⟨50, 2024, ("APRIL" : String), Kind.EX⟩])
      = [⟨100, 2024, ("APRIL" : String), Kind.REV⟩,
        ⟨50, 2024, ("APRIL" : String), Kind.EX⟩] :=
  C2_roundtrip (by decide) (by decide) (by decide) (by decide)

/-! Claim C3. -/

/-- Counterexample to claim C3 as stated: a cell holding only the expense
token for (2024, APRIL), saved for year 2024 into the April column, still
emits a ledger row, although the claim allows rows for revenue-kind tokens
only; the ledger scan never consults the kind. -/
theorem C3_counterexample :
    parse_dev_tokens ("50:2024;APRIL;EX") = [⟨50, 2024, ("APRIL" : String), Kind.EX⟩]
    ∧ cellLedgerRows 2024 ("Απρίλιος") ("Ισόγειο") 1 ("50:2024;APRIL;EX")
      = [⟨2024, ("Ισόγειο"), ("Απρίλιος"), 1, 50⟩] := by
  exact ⟨by decide, by decide⟩

/-- Claim C3 as amended: for a saved grid cell, every emitted ledger row
carries the saved year, the cell's own column month, floor and day, and a
cell none of whose tokens match the saved (year, column month) key (and
which is not a bare number, the branch that coins a fresh token) emits no
row at all; in particular a token whose embedded month differs from the
column month is excluded.  The kind restriction of the original claim is
dropped: expense tokens also emit rows. -/
theorem C3_month_filter {Y : ℕ} {m_gr : String} (hm : m_gr ∈ MONTHS)
    (hy1 : 1000 ≤ Y) (hy2 : Y ≤ 9999) (fl : String) (d : ℕ) (cell : String) :
    (∀ r ∈ cellLedgerRows Y m_gr fl d cell,
        r.year = Y ∧ r.month = m_gr ∧ r.floor = fl ∧ r.day = d)
    ∧ ((∀ t ∈ parse_dev_tokens cell,
          ¬ (t.year = Y ∧ asciiUpper t.month_en = monthEnOf m_gr)) →
        searchNumberCh (pyStripCh cell.data) ≠ some (pyStripCh cell.data) →
        cellLedgerRows Y m_gr fl d cell = []) := by
  have hme : monthEnOf m_gr ∈ MONTH_EN_VALUES := months_mapped m_gr hm
  have hma : monthAlpha (monthEnOf m_gr) = true := (month_values_ok _ hme).1
  constructor
  · intro r hr
    unfold cellLedgerRows rowsFromFileCell at hr
    obtain ⟨e, he, hre⟩ := List.mem_map.mp hr
    have hprops := phase1Cell_props hma hy1 hy2 cell e (dedupe_subset he)
    rw [← hre]
    exact ⟨hprops.1, rfl, rfl, rfl⟩
  · intro hno hnotbare
    unfold cellLedgerRows
    rw [phase1Cell_excluded cell hno hnotbare]
    rfl

/-- Witness for C3 at the specification's own example: the May token stored
in the April column of the year 2024 grid contributes no ledger row. -/
theorem C3_witness :
    cellLedgerRows 2024 ("Απρίλιος") ("Ισόγειο") 1 ("50:2024;MAY") = [] :=
  (C3_month_filter (by decide) (by norm_num) (by norm_num) ("Ισόγειο") 1
    ("50:2024;MAY")).2 (by decide) (by decide)

/-! Claim C4. -/

/-- Counterexample to claim C4 as stated: the token regex accepts any
uppercase word as a month, so the string with month FOO decodes to a
record although FOO is none of the twelve canonical month codes, where the
claim requires no match. -/
theorem C4_counterexample :
    parse_dev_tokens ("100:2024;FOO") = [⟨100, 2024, ("FOO" : String), Kind.REV⟩]
    ∧ ("FOO" : String) ∉ MONTH_EN_VALUES := by
  constructor
  · decide
  · decide

/-- Claim C4 as amended: decode_token accepts one or more uppercase ASCII
letters as the month field; the twelve canonical codes are accepted but not
distinguished, and month validity is not enforced at decode time. -/
theorem C4_any_uppercase_month (mo : String) (hm : monthAlpha mo = true)
    (hne : mo.data ≠ []) :
    parse_dev_tokens (("100:2024;" : String) ++ mo) = [⟨100, 2024, mo, Kind.REV⟩] := by
  have heq : ("100:2024;" : String) ++ mo
      = serialize_dev [⟨100, 2024, mo, Kind.REV⟩] := by
    rw [serialize_singleton]
    rcases mo with ⟨md⟩
    unfold serializeTokCh
    dsimp only
    show String.mk _ = String.mk _
    have h1 : (formatG (100 : ℚ)).data = ['1', '0', '0'] := by decide
    have h2 : natDigits 2024 = ['2', '0', '2', '4'] := by decide
    rw [h1, h2, asciiUpper_of_monthAlpha hm]
    simp [kindSuffix]
  rw [heq, parse_serialize (by
    intro t ht
    rcases List.mem_singleton.mp ht with rfl
    exact hm)]
  exact filterMap_some_id (fun t ht => by
    rcases List.mem_singleton.mp ht with rfl
    exact reparse_exact hm hne (by norm_num) (by norm_num)
      (show priceRT (100 : ℚ) by decide))

/-- Witness for C4 at the month word FOO, which is not a canonical code yet
decodes. -/
theorem C4_witness :
    parse_dev_tokens (("100:2024;" : String) ++ ("FOO" : String))
      = [⟨100, 2024, ("FOO" : String), Kind.REV⟩] :=
  C4_any_uppercase_month ("FOO") (by decide) (by decide)

/-! Claim C5. -/

/-- Counterexample to claim C5 as stated: submitting the two comma-separated
values for the years 2023 and 2024 in one update does not reconcile each of
them; only the first number 100 is kept, bound to the selected year 2024,
and no token for 2023 appears in the resulting cell, where the claim
requires both values to appear. -/
theorem C5_counterexample :
    parse_dev_tokens (applyFormValue 2024 ("APRIL") ("")
        ("100:2023;APRIL,200:2024;APRIL"))
      = [⟨100, 2024, ("APRIL" : String), Kind.REV⟩]
    ∧ ¬ ∃ t ∈ parse_dev_tokens (applyFormValue 2024 ("APRIL") ("")
        ("100:2023;APRIL,200:2024;APRIL")), t.year = 2023 := by
  constructor
  · decide
  · decide

/-- Claim C5 as amended: one submitted value contributes through its first
decimal number only; the update behaves exactly as if the user had typed
just that number, keyed to the selected year and the column month, and all
other content of the value is ignored. -/
theorem C5_first_number_only (y : ℕ) (m_en s v : String) (ns : List Char)
    (h : searchNumberCh (pyStripCh v.data) = some ns) :
    applyFormValue y m_en s v = applyFormValue y m_en s ⟨ns⟩ := by
  obtain ⟨hne, _, hself, hstrip⟩ := searchNumber_shape h
  have hvne : ¬ pyStripCh v.data = [] := by
    intro hb
    rw [hb] at h
    simp [searchNumberCh] at h
  unfold applyFormValue
  rw [if_neg hvne, h]
  have hdata : (⟨ns⟩ : String).data = ns := rfl
  rw [hdata, hstrip, if_neg hne, hself]

/-- Witness for C5: the two-value update of the counterexample behaves as
the plain update with just the text 100. -/
theorem C5_witness :
    applyFormValue 2024 ("APRIL") ("") ("100:2023;APRIL,200:2024;APRIL")
      = applyFormValue 2024 ("APRIL") ("") (⟨['1', '0', '0']⟩) :=
  C5_first_number_only 2024 ("APRIL") ("") ("100:2023;APRIL,200:2024;APRIL")
    ['1', '0', '0'] (by decide)

/-! Claim C6. -/

/-- Counterexample to claim C6 as stated: the cell holds one expense token
for (2024, APRIL), whose (year, month, kind) key differs from the entry key
(2024, APRIL, REV), yet applying the entry removes it: the reconciliation
filter and dedupe_by_key key on (year, month) only, ignoring the kind. -/
theorem C6_counterexample :
    parse_dev_tokens ("50:2024;APRIL;EX") = [⟨50, 2024, ("APRIL" : String), Kind.EX⟩]
    ∧ applyFormValue 2024 ("APRIL") ("50:2024;APRIL;EX") ("100") = ("100:2024;APRIL")
    ∧ ¬ ∃ t ∈ parse_dev_tokens (applyFormValue 2024 ("APRIL") ("50:2024;APRIL;EX")
        ("100")), t.kind = Kind.EX := by
  refine ⟨by decide, by decide, by decide⟩

/-- Claim C6 as amended: for a cell satisfying the key-uniqueness invariant
whose tokens have 4-digit years and percent-g-exact prices, every token
whose (year, month) pair differs from the entry's (year, month) survives
the reconciliation as a record; the kind is not part of the key, so a token
sharing the entry's (year, month) is removed whatever its kind. -/
theorem C6_other_keys_survive {y : ℕ} {m_en : String} (hm : monthAlpha m_en = true)
    (hy : y ≤ 9999) (s v : String) (hnd : distinctKeys (parse_dev_tokens s))
    (hwf : ∀ t ∈ parse_dev_tokens s, 1000 ≤ t.year ∧ priceRT t.price) :
    ∀ t ∈ parse_dev_tokens s, keyOf t ≠ (y, m_en) →
      t ∈ parse_dev_tokens (applyFormValue y m_en s v) := by
  intro t ht hkey
  unfold applyFormValue
  by_cases hblank : pyStripCh v.data = []
  · rw [if_pos hblank]
    exact ht
  · rw [if_neg hblank]
    rcases hsearch : searchNumberCh (pyStripCh v.data) with _ | num
    · exact ht
    · dsimp only
      have hcond : (!(decide (t.year = y) && decide (asciiUpper t.month_en = m_en)))
          = true := by
        rw [Bool.not_eq_true']
        rw [Bool.and_eq_false_iff]
        by_cases h1 : t.year = y
        · right
          rw [decide_eq_false_iff_not]
          intro h2
          exact hkey (by rw [keyOf, h1, h2])
        · left
          rw [decide_eq_false_iff_not]
          exact h1
      have hfil : t ∈ (parse_dev_tokens s).filter
          (fun e => !(decide (e.year = y) && decide (asciiUpper e.month_en = m_en))) :=
        List.mem_filter.mpr ⟨ht, hcond⟩
      have hfilsub : ∀ u ∈ (parse_dev_tokens s).filter
          (fun e => !(decide (e.year = y) && decide (asciiUpper e.month_en = m_en))),
          u ∈ parse_dev_tokens s := fun u hu => List.mem_of_mem_filter hu
      have hup : asciiUpper m_en = m_en := asciiUpper_of_monthAlpha hm
      have hnd2 : ((parse_dev_tokens s).map keyOf).Nodup := hnd
      have hkeys : ((((parse_dev_tokens s).filter
          (fun (e : DevTok) =>
            !(decide (e.year = y) && decide (asciiUpper e.month_en = m_en))))
            ++ ([⟨numeralValue num, y, m_en, Kind.REV⟩] : List DevTok)).map keyOf).Nodup := by
        rw [List.map_append, List.nodup_append]
        refine ⟨List.Nodup.sublist (List.Sublist.map keyOf (List.filter_sublist _)) hnd2,
          List.nodup_singleton _, ?_⟩
        intro k hk1 hk2
        obtain ⟨u, hu, hku⟩ := List.mem_map.mp hk1
        obtain ⟨w, hw, hkw⟩ := List.mem_map.mp hk2
        rcases List.mem_singleton.mp hw with rfl
        have hknew : k = (y, m_en) := by
          rw [← hkw]
          show (y, asciiUpper m_en) = (y, m_en)
          rw [hup]
        have hyu : u.year = y ∧ asciiUpper u.month_en = m_en := by
          have hk : keyOf u = (y, m_en) := by rw [hku, hknew]
          unfold keyOf at hk
          exact ⟨congrArg Prod.fst hk, congrArg Prod.snd hk⟩
        have hcond2 := List.of_mem_filter hu
        simp only [Bool.not_eq_true', Bool.and_eq_false_iff,
          decide_eq_false_iff_not] at hcond2
        rcases hcond2 with hc | hc
        · exact hc hyu.1
        · exact hc hyu.2
      rw [dedupe_nodup_id hkeys]
      rw [parse_serialize (by
        intro u hu
        rcases List.mem_append.mp hu with hu | hu
        · exact (parse_tokens_props (hfilsub u hu)).1
        · rcases List.mem_singleton.mp hu with rfl
          exact hm)]
      apply List.mem_filterMap.mpr
      refine ⟨t, List.mem_append_left _ hfil, ?_⟩
      exact reparse_exact (parse_tokens_props ht).1 (parse_tokens_props ht).2.1
        (hwf t ht).1 (parse_tokens_props ht).2.2 (hwf t ht).2

/-- Witness for C6 at the specification's own example: the 2023 token
survives the 2024 update untouched. -/
theorem C6_witness :
    (⟨80, 2023, ("APRIL" : String), Kind.REV⟩ : DevTok)
      ∈ parse_dev_tokens (applyFormValue 2024 ("APRIL") ("80:2023;APRIL") ("150")) :=
  C6_other_keys_survive (by decide) (by decide) ("80:2023;APRIL") ("150") (by decide)
    (by decide) ⟨80, 2023, ("APRIL" : String), Kind.REV⟩ (by decide) (by decide)

/-! Machinery for the ledger sort: the comparison is transitive and total,
and the row keys of a consistent file set are pairwise distinct. -/

theorem rowLE_trans : ∀ a b c : LedgerRow,
    rowLE a b = true → rowLE b c = true → rowLE a c = true := by
  intro a b c hab hbc
  rw [rowLE, decide_eq_true_eq] at hab hbc ⊢
  exact le_trans hab hbc

theorem rowLE_total : ∀ a b : LedgerRow, (rowLE a b || rowLE b a) = true := by
  intro a b
  simp only [rowLE, Bool.or_eq_true, decide_eq_true_eq]
  exact le_total _ _

theorem days_nodup : DAYS.Nodup := by decide

theorem floors_nodup : FLOORS_DISPLAY.Nodup := by decide

theorem flatMap_tag_nodup {α β : Type} (g : α → List β) (h : β → α) :
    ∀ l : List α, l.Nodup →
      (∀ a ∈ l, (g a).length ≤ 1) →
      (∀ a ∈ l, ∀ b ∈ g a, h b = a) →
      ((l.flatMap g).map h).Nodup ∧ ∀ b ∈ l.flatMap g, h b ∈ l := by
  intro l
  induction l with
  | nil => exact fun _ _ _ => ⟨List.nodup_nil, by simp⟩
  | cons a t ih =>
    intro hnd hlen htag
    rw [List.nodup_cons] at hnd
    obtain ⟨ihn, ihm⟩ := ih hnd.2 (fun x hx => hlen x (List.mem_cons_of_mem a hx))
      (fun x hx => htag x (List.mem_cons_of_mem a hx))
    have hmem : ∀ b ∈ (a :: t).flatMap g, h b ∈ a :: t := by
      intro b hb
      rw [List.flatMap_cons] at hb
      rcases List.mem_append.mp hb with hb | hb
      · rw [htag a (List.mem_cons_self a t) b hb]
        exact List.mem_cons_self a t
      · exact List.mem_cons_of_mem a (ihm b hb)
    refine ⟨?_, hmem⟩
    rw [List.flatMap_cons, List.map_append, List.nodup_append]
    refine ⟨?_, ihn, ?_⟩
    · rcases hga : g a with _ | ⟨b, bs⟩
      · simp
      · rcases bs with _ | ⟨b2, bs2⟩
        · simp
        · have hla := hlen a (List.mem_cons_self a t)
          rw [hga] at hla
          simp only [List.length_cons] at hla
          omega
    · intro x hx1 hx2
      obtain ⟨b, hb, hbx⟩ := List.mem_map.mp hx1
      obtain ⟨b2, hb2, hb2x⟩ := List.mem_map.mp hx2
      have hxa : x = a := by
        rw [← hbx]
        exact htag a (List.mem_cons_self a t) b hb
      have hxt : x ∈ t := by
        rw [← hb2x]
        exact ihm b2 hb2
      rw [hxa] at hxt
      exact hnd.1 hxt

theorem flatMap_pair_nodup {α β γ δ : Type} (g : α → List β) (τ : α → γ)
    (h1 : β → γ) (h2 : β → δ) :
    ∀ l : List α, (l.map τ).Nodup →
      (∀ a ∈ l, ∀ b ∈ g a, h1 b = τ a) →
      (∀ a ∈ l, ((g a).map h2).Nodup) →
      ((l.flatMap g).map (fun b => (h1 b, h2 b))).Nodup
      ∧ ∀ b ∈ l.flatMap g, ∃ x ∈ l, h1 b = τ x := by
  intro l
  induction l with
  | nil => exact fun _ _ _ => ⟨List.nodup_nil, by simp⟩
  | cons a t ih =>
    intro hnd htag hinner
    rw [List.map_cons, List.nodup_cons] at hnd
    obtain ⟨ihn, ihm⟩ := ih hnd.2 (fun x hx => htag x (List.mem_cons_of_mem a hx))
      (fun x hx => hinner x (List.mem_cons_of_mem a hx))
    have hmem : ∀ b ∈ (a :: t).flatMap g, ∃ x ∈ a :: t, h1 b = τ x := by
      intro b hb
      rw [List.flatMap_cons] at hb
      rcases List.mem_append.mp hb with hb | hb
      · exact ⟨a, List.mem_cons_self a t, htag a (List.mem_cons_self a t) b hb⟩
      · obtain ⟨x, hx, hbx⟩ := ihm b hb
        exact ⟨x, List.mem_cons_of_mem a hx, hbx⟩
    refine ⟨?_, hmem⟩
    rw [List.flatMap_cons, List.map_append, List.nodup_append]
    refine ⟨?_, ihn, ?_⟩
    · have hin := hinner a (List.mem_cons_self a t)
      have hrw : ((g a).map (fun b => (h1 b, h2 b))).map Prod.snd = (g a).map h2 := by
        rw [List.map_map]
        rfl
      exact List.Nodup.of_map Prod.snd (hrw ▸ hin)
    · intro x hx1 hx2
      obtain ⟨b, hb, hbx⟩ := List.mem_map.mp hx1
      obtain ⟨b2, hb2, hb2x⟩ := List.mem_map.mp hx2
      obtain ⟨x2, hx2t, hb2τ⟩ := ihm b2 hb2
      have h1a : x.1 = τ a := by
        rw [← hbx]
        exact htag a (List.mem_cons_self a t) b hb
      have h1t : x.1 = τ x2 := by
        rw [← hb2x]
        exact hb2τ
      exact hnd.1 (List.mem_map.mpr ⟨x2, hx2t, by rw [← h1t, h1a]⟩)

theorem rowsFromFileCell_tags {gr fl : String} {d : ℕ} {val : String} :
    ∀ r ∈ rowsFromFileCell gr fl d val, r.floor = fl ∧ r.day = d ∧ r.month = gr := by
  intro r hr
  unfold rowsFromFileCell at hr
  obtain ⟨e, he, hre⟩ := List.mem_map.mp hr
  rw [← hre]
  exact ⟨rfl, rfl, rfl⟩

theorem rowsFromFileCell_len {gr fl : String} {d : ℕ} {val : String} {k : ℕ × String}
    (h : ∀ t ∈ parse_dev_tokens val, keyOf t = k) :
    (rowsFromFileCell gr fl d val).length ≤ 1 := by
  unfold rowsFromFileCell
  rw [List.length_map]
  exact dedupe_all_same_key h

theorem month_pairs_inv : ∀ p ∈ MONTH_EN_PAIRS, monthEnOf p.1 = p.2 := by decide

theorem monthGrOf_inv {en gr : String} (h : monthGrOf en = some gr) :
    monthEnOf gr = en := by
  unfold monthGrOf at h
  rcases hf : MONTH_EN_PAIRS.find? (fun p => p.2 == en) with _ | p
  · rw [hf] at h
    exact Option.noConfusion h
  · rw [hf] at h
    simp only [Option.map_some'] at h
    have hmem := List.mem_of_find?_eq_some hf
    have hbeq := List.find?_some hf
    have hp2 : p.2 = en := by simpa using hbeq
    rw [Option.some_inj] at h
    rw [← h, month_pairs_inv p hmem, hp2]

theorem fileRecs_rows {f : DevFile} (hc : fileConsistent f) :
    ((fileRecs f).map (fun r => (r.floor, r.day))).Nodup
    ∧ ∀ r ∈ fileRecs f, r.year = f.year ∧ monthEnOf r.month = f.month_en := by
  unfold fileRecs
  rcases hgr : monthGrOf f.month_en with _ | gr
  · exact ⟨List.nodup_nil, by simp⟩
  · dsimp only
    have hfloors : (FLOORS_DISPLAY.filter (fun fl => f.cols.contains fl)).Nodup :=
      List.Nodup.sublist (List.filter_sublist _) floors_nodup
    have hdays : ∀ fl ∈ FLOORS_DISPLAY.filter (fun fl => f.cols.contains fl),
        ((DAYS.flatMap (fun d => rowsFromFileCell gr fl d (f.cell fl d))).map
          (fun r => r.day)).Nodup := by
      intro fl hfl
      have hflmem := List.mem_of_mem_filter hfl
      exact (flatMap_tag_nodup (fun d => rowsFromFileCell gr fl d (f.cell fl d))
        (fun r => r.day) DAYS days_nodup
        (fun d hd => rowsFromFileCell_len (fun t ht => by
          have hct := hc fl hflmem d hd t ht
          show (t.year, asciiUpper t.month_en) = (f.year, f.month_en)
          rw [hct.1, hct.2]))
        (fun d hd r hr => (rowsFromFileCell_tags r hr).2.1)).1
    have hmain := flatMap_pair_nodup
      (fun fl => DAYS.flatMap (fun d => rowsFromFileCell gr fl d (f.cell fl d)))
      (fun fl => fl) (fun r => r.floor) (fun r => r.day)
      (FLOORS_DISPLAY.filter (fun fl => f.cols.contains fl))
      (by rw [show (fun fl : String => fl) = id from rfl, List.map_id]
          exact hfloors)
      (fun fl hfl r hr => by
        obtain ⟨d, hd, hrd⟩ := List.mem_flatMap.mp hr
        exact (rowsFromFileCell_tags r hrd).1)
      hdays
    refine ⟨hmain.1, ?_⟩
    intro r hr
    obtain ⟨fl, hfl, hrfl⟩ := List.mem_flatMap.mp hr
    obtain ⟨d, hd, hrd⟩ := List.mem_flatMap.mp hrfl
    unfold rowsFromFileCell at hrd
    obtain ⟨e, he, hre⟩ := List.mem_map.mp hrd
    have hce := hc fl (List.mem_of_mem_filter hfl) d hd e (dedupe_subset he)
    constructor
    · rw [← hre]
      exact hce.1
    · rw [← hre]
      show monthEnOf gr = f.month_en
      exact monthGrOf_inv hgr

theorem gridRows_nodup {files : List DevFile} (hc : ∀ f ∈ files, fileConsistent f)
    (hk : (files.map (fun f => (f.year, f.month_en))).Nodup) :
    ((files.flatMap fileRecs).map rowKeyL).Nodup := by
  have hmain := flatMap_pair_nodup fileRecs (fun f => (f.year, f.month_en))
    (fun r => (r.year, monthEnOf r.month)) (fun r => (r.floor, r.day)) files hk
    (fun f hf r hr => by
      have hfr := (fileRecs_rows (hc f hf)).2 r hr
      show (r.year, monthEnOf r.month) = (f.year, f.month_en)
      rw [hfr.1, hfr.2])
    (fun f hf => (fileRecs_rows (hc f hf)).1)
  have hre : (files.flatMap fileRecs).map
      (fun r => ((r.year, monthEnOf r.month), (r.floor, r.day)))
      = ((files.flatMap fileRecs).map rowKeyL).map (fun k =>
          (((ofLex k).1, monthEnOf (ofLex (ofLex k).2).1),
           ((ofLex (ofLex (ofLex k).2).2).1, (ofLex (ofLex (ofLex k).2).2).2))) := by
    rw [List.map_map]
    rfl
  exact List.Nodup.of_map _ (hre ▸ hmain.1)

/-! Claim C7. -/

/-- Claim C7: the ledger rebuild is sorted and deterministic.  For a file
set in which every token is bound to its file's own year and month (the
invariant phase 1 establishes) and no two files share a (year, month code)
name, the output is sorted under the (year, month, floor, day) comparison,
and any permutation of the same files, such as another directory
enumeration order, produces the identical row list. -/
theorem C7_sorted_deterministic {files files' : List DevFile}
    (hc : ∀ f ∈ files, fileConsistent f)
    (hk : (files.map (fun f => (f.year, f.month_en))).Nodup)
    (hp : List.Perm files files') :
    (gridToLedger files).Pairwise (fun a b => rowLE a b = true)
    ∧ gridToLedger files = gridToLedger files' := by
  refine ⟨List.sorted_mergeSort rowLE_trans rowLE_total _, ?_⟩
  have hnd : ((files.flatMap fileRecs).map rowKeyL).Nodup := gridRows_nodup hc hk
  have hpr : List.Perm (files.flatMap fileRecs) (files'.flatMap fileRecs) :=
    hp.flatMap_right fileRecs
  have hperm1 : List.Perm (gridToLedger files) (files.flatMap fileRecs) :=
    List.mergeSort_perm _ rowLE
  have hperm2 : List.Perm (gridToLedger files') (files'.flatMap fileRecs) :=
    List.mergeSort_perm _ rowLE
  have hgperm : List.Perm (gridToLedger files) (gridToLedger files') :=
    (hperm1.trans hpr).trans hperm2.symm
  have hnd1 : ((gridToLedger files).map rowKeyL).Nodup :=
    (hperm1.map rowKeyL).nodup_iff.mpr hnd
  have hnd2 : ((gridToLedger files').map rowKeyL).Nodup :=
    (hgperm.map rowKeyL).nodup_iff.mp hnd1
  have hstrict : ∀ l : List LedgerRow, l.Pairwise (fun a b => rowLE a b = true) →
      (l.map rowKeyL).Nodup → l.Pairwise (fun a b => rowKeyL a < rowKeyL b) := by
    intro l hs hn
    have hn2 : l.Pairwise (fun a b => rowKeyL a ≠ rowKeyL b) := List.pairwise_map.mp hn
    exact (hs.and hn2).imp (fun h => lt_of_le_of_ne (of_decide_eq_true h.1) h.2)
  have hs1 := hstrict _ (List.sorted_mergeSort rowLE_trans rowLE_total _) hnd1
  have hs2 := hstrict _ (List.sorted_mergeSort rowLE_trans rowLE_total _) hnd2
  haveI : IsAntisymm LedgerRow (fun a b => rowKeyL a < rowKeyL b) :=
    ⟨fun a b h1 h2 => absurd (lt_trans h1 h2) (lt_irrefl _)⟩
  exact List.eq_of_perm_of_sorted hgperm hs1 hs2

/-- Witness for C7: a two-file April and May grid for 2024 yields a sorted
ledger, and swapping the enumeration order of the two files leaves the
output unchanged. -/
theorem C7_witness :
    (gridToLedger [sampleFileA, sampleFileB]).Pairwise (fun a b => rowLE a b = true)
    ∧ gridToLedger [sampleFileA, sampleFileB] = gridToLedger [sampleFileB, sampleFileA] :=
  C7_sorted_deterministic (by decide) (by decide)
    (List.Perm.swap sampleFileB sampleFileA [])

/-! Claim C8. -/

/-- Claim C8: decode_cell is total and lenient.  Assembling any nonempty
list of comma-free segment texts with commas and decoding the result gives
exactly the tokens of the segments that match the token regex after
stripping, in their original order, every failing segment silently
discarded; the empty cell decodes to the empty list. -/
theorem C8_lenient_decode {ss : List (List Char)} (hne : ss ≠ [])
    (hsegs : ∀ p ∈ ss, ∀ c ∈ p, c ≠ ',') :
    parse_dev_tokens ⟨joinComma ss⟩ = (ss.map pyStripCh).filterMap matchTokenCh
    ∧ parse_dev_tokens ("") = [] := by
  constructor
  · show ((splitCommaCh (joinComma ss)).map pyStripCh).filterMap matchTokenCh = _
    rw [split_join hne hsegs]
  · decide

/-- Witness for C8 at the specification's own example: the garbage segment
fails to decode and the two well-formed segments survive in order. -/
theorem C8_witness :
    parse_dev_tokens ("100:2024;APRIL, garbage, 50:2024;MAY;EX")
      = [⟨100, 2024, ("APRIL" : String), Kind.REV⟩, ⟨50, 2024, ("MAY" : String), Kind.EX⟩]
    ∧ parse_dev_tokens ("") = [] := by
  have h := @C8_lenient_decode [("100:2024;APRIL").data, (" garbage").data,
    (" 50:2024;MAY;EX").data] (by decide) (by decide)
  refine ⟨?_, h.2⟩
  have he : ("100:2024;APRIL, garbage, 50:2024;MAY;EX" : String)
      = ⟨joinComma [("100:2024;APRIL").data, (" garbage").data,
          (" 50:2024;MAY;EX").data]⟩ := by decide
  rw [he, h.1]
  decide

/-! Claim C9. -/

/-- Claim C9: dedupe_by_key leaves pairwise distinct (year, month) keys,
keeps for every key exactly the last token of the input carrying it
whatever its kind, and two surviving tokens sharing a key are equal, so a
revenue and an expense token for the same year and month cannot both
survive. -/
theorem C9_dedupe_last_wins (toks : List DevTok) :
    ((dedupe_by_key toks).map keyOf).Nodup
    ∧ (∀ k, (dedupe_by_key toks).find? (fun e => decide (keyOf e = k))
        = (toks.filter (fun e => decide (keyOf e = k))).getLast?)
    ∧ ∀ t ∈ dedupe_by_key toks, ∀ u ∈ dedupe_by_key toks, keyOf t = keyOf u → t = u := by
  refine ⟨dedupe_keys_nodup toks, fun k => dedupe_find toks k, ?_⟩
  intro t ht u hu hk
  exact List.inj_on_of_nodup_map (dedupe_keys_nodup toks) ht hu hk

/-! Claim C10. -/

/-- Claim C10: the cell written for year Y and a month column holds only
tokens whose embedded year is Y and whose embedded month is the column's
code; any token for another year present in the in-memory cell is omitted
from the file saved for year Y. -/
theorem C10_year_filter {Y : ℕ} {m_en : String} (hm : m_en ∈ MONTH_EN_VALUES)
    (hy1 : 1000 ≤ Y) (hy2 : Y ≤ 9999) (cell : String) :
    (∀ t ∈ parse_dev_tokens (phase1Cell Y m_en cell),
        t.year = Y ∧ asciiUpper t.month_en = m_en)
    ∧ ∀ t : DevTok, t.year ≠ Y → t ∉ parse_dev_tokens (phase1Cell Y m_en cell) := by
  have hma : monthAlpha m_en = true := (month_values_ok _ hm).1
  refine ⟨phase1Cell_props hma hy1 hy2 cell, ?_⟩
  intro t hty ht
  exact hty (phase1Cell_props hma hy1 hy2 cell t ht).1

/-- Witness for C10: saving the cell holding tokens for 2023 and 2024 into
the April file of year 2024 keeps only the 2024 token. -/
theorem C10_witness :
    phase1Cell 2024 ("APRIL") ("80:2023;APRIL,100:2024;APRIL") = ("100:2024;APRIL")
    ∧ (⟨80, 2023, ("APRIL" : String), Kind.REV⟩ : DevTok)
      ∉ parse_dev_tokens (phase1Cell 2024 ("APRIL") ("80:2023;APRIL,100:2024;APRIL")) :=
  ⟨by decide,
   (C10_year_filter (by decide) (by norm_num) (by norm_num)
     ("80:2023;APRIL,100:2024;APRIL")).2 ⟨80, 2023, ("APRIL" : String), Kind.REV⟩
     (by decide)⟩

end Lithorama
